import Mathlib

/-!
# Verification development for the `virtual-shell` engine

A shallow embedding of the `virtual-shell` TypeScript package: a virtual
Unix-like shell executing commands against an in-memory filesystem volume.
The embedding follows the source files:

* `src/virtual-shell.ts` — the `VirtualShell` orchestrator (`executeCommand`,
  `extractRedirection`, `processRedirection`, `changeDirectory`,
  `importCommandModules`, `serializeVolume`/`deserializeVolume`,
  `stdout`/`stderr`),
* `src/types.ts` — `ERROR_MESSAGES`,
* `src/commands/cat-command.ts`, the echo command module and the rm command
  module — the built-in command bodies present in the staged sources,
* `src/hooks/pre-hook.ts` and the post-hook module — the hook pipelines.

Two parts of the engine are not among the staged sources and are modelled
from the spec's words instead (their doc comments say so): the sandbox
executor (`executeFunction` of the base command) and the cd command body.

External collaborators (the `memfs` volume, the `shell-quote` tokenizer,
POSIX path resolution from `node:path`) are modelled at their interface,
restricted to the behaviour this repository exercises (ASCII text, absolute
working directories).  String manipulation is implemented over `List Char`
with structural recursion so that every definition evaluates by `decide`/`rfl`.
-/

namespace VShell

/-! ## Character and string utilities (JS semantics, ASCII fragment)

JavaScript whitespace (`\s`, `String.prototype.trim`) restricted to the ASCII
characters that occur in shell command lines. -/

/-- Whitespace test matching the ASCII part of JavaScript `\s` and `trim()`:
space, tab, line feed, vertical tab, form feed, carriage return. -/
def wsChar (c : Char) : Bool :=
  c = ' ' || c = '\t' || c = '\n' || c = '\x0b' || c = '\x0c' || c = '\r'

/-- JS line terminators excluded by the regex metacharacter `.` (ASCII part). -/
def lineTermChar (c : Char) : Bool :=
  c = '\n' || c = '\r'

/-- Drop leading whitespace characters. -/
def dropWs : List Char → List Char
  | [] => []
  | c :: cs => if wsChar c then dropWs cs else c :: cs

/-- `String.prototype.trim`: strip whitespace from both ends. -/
def trimChars (l : List Char) : List Char :=
  ((dropWs l.reverse).reverse : List Char) |> dropWs

/-- `String.prototype.trim` on strings. -/
def jsTrim (s : String) : String :=
  String.mk (trimChars s.data)

/-- Split a character list on runs of whitespace, dropping empty pieces
(the behaviour of `"a  b".split(/\s+/)` after trimming). -/
def splitWsAux : List Char → List Char → List String → List String
  | [], cur, acc =>
      (if cur.isEmpty then acc else String.mk cur.reverse :: acc).reverse
  | c :: cs, cur, acc =>
      if wsChar c then
        splitWsAux cs [] (if cur.isEmpty then acc else String.mk cur.reverse :: acc)
      else
        splitWsAux cs (c :: cur) acc

/-- `split(/\s+/)` on a string with no leading whitespace. -/
def splitWs (s : String) : List String := splitWsAux s.data [] []

/-- Split a character list on a single separator character, keeping empty
pieces (the behaviour of `"a/b".split('/')`). -/
def splitOnCharAux (sep : Char) : List Char → List Char → List String → List String
  | [], cur, acc => (String.mk cur.reverse :: acc).reverse
  | c :: cs, cur, acc =>
      if c = sep then splitOnCharAux sep cs [] (String.mk cur.reverse :: acc)
      else splitOnCharAux sep cs (c :: cur) acc

/-- Split a string on a separator character. -/
def splitOnChar (sep : Char) (s : String) : List String :=
  splitOnCharAux sep s.data [] []

/-- `String.prototype.startsWith` for a single-character search string. -/
def jsStartsWithChar (c : Char) (s : String) : Bool :=
  match s.data with
  | [] => false
  | d :: _ => d = c

/-- List-level prefix test. -/
def isPrefixOfChars : List Char → List Char → Bool
  | [], _ => true
  | _ :: _, [] => false
  | a :: as, b :: bs => a = b && isPrefixOfChars as bs

/-- `String.prototype.endsWith`. -/
def jsEndsWith (suffix s : String) : Bool :=
  isPrefixOfChars suffix.data.reverse s.data.reverse

/-- Replace the first occurrence of `pat` (nonempty) in the character list,
as JS `String.prototype.replace` with a string pattern. -/
def replaceFirstChars (pat repl : List Char) : List Char → List Char
  | [] => []
  | c :: cs =>
      if isPrefixOfChars pat (c :: cs) then
        repl ++ (c :: cs).drop pat.length
      else
        c :: replaceFirstChars pat repl cs

/-- JS `String.prototype.replace` with a plain-string pattern (first
occurrence only). -/
def jsReplaceFirst (s pat repl : String) : String :=
  String.mk (replaceFirstChars pat.data repl.data s.data)

/-- ASCII uppercase test (the `A`–`Z` range). -/
def upperChar (c : Char) : Bool :=
  'A' ≤ c && c ≤ 'Z'

/-- JS `String.prototype.toLowerCase` on the ASCII range: shift `A`–`Z`
down by 32, leave everything else alone. -/
def lowerChar (c : Char) : Char :=
  if upperChar c then Char.ofNat (c.toNat + 32) else c

/-- Lowercase every character of a string (ASCII fragment of
`toLowerCase`). -/
def jsToLower (s : String) : String :=
  String.mk (s.data.map lowerChar)

/-- Join a list of strings with a separator. -/
def joinSep (sep : String) : List String → String
  | [] => ""
  | [x] => x
  | x :: y :: rest => x ++ sep ++ joinSep sep (y :: rest)

/-- Does the string contain an ASCII uppercase character? -/
def hasUpper (s : String) : Bool :=
  s.data.any upperChar

/-! ## POSIX path resolution (`node:path`'s `path.posix`)

The shell stores `currentDirectory` as an absolute path and resolves every
target with `path.posix.resolve(currentDirectory, target)`.  We model
resolution for absolute working directories (the only ones the shell
produces: the default is `/` and `changeDirectory` only stores resolved
absolute paths). -/

/-- Normalise path segments: drop `.` and empty segments, let `..` pop the
previous segment (at the root `..` stays at the root). -/
def normSegsAux : List String → List String → List String
  | acc, [] => acc.reverse
  | acc, s :: rest =>
      if s = "" || s = "." then normSegsAux acc rest
      else if s = ".." then normSegsAux acc.tail rest
      else normSegsAux (s :: acc) rest

/-- Split a path string on `/` and normalise the segments. -/
def pathSegs (s : String) : List String :=
  normSegsAux [] (splitOnChar '/' s)

/-- `path.posix.resolve(cwd, target)` as segment list, for an absolute
`cwd`. -/
def resolveSegs (cwd target : String) : List String :=
  if jsStartsWithChar '/' target then pathSegs target
  else pathSegs (cwd ++ "/" ++ target)

/-- Render a segment list as an absolute path string. -/
def segsToPath (segs : List String) : String :=
  "/" ++ joinSep "/" segs

/-- `path.posix.resolve(cwd, target)` as a string, for an absolute `cwd`. -/
def resolvePath (cwd target : String) : String :=
  segsToPath (resolveSegs cwd target)

/-- `path.posix.basename`: the last segment of the path, `""` for the
root. -/
def posixBasename (s : String) : String :=
  (pathSegs s).getLast?.getD ""

/-! ## The virtual filesystem volume (`memfs` interface model)

`memfs`'s `Volume` is modelled as a tree of named nodes.  The shell reaches
it only through the promise API used in the source: `lstat`, `readFile`,
`writeFile`, `appendFile`, `access(W_OK)`, `mkdir`, `rm`/`unlink`.  Every
node `memfs` creates is writable by default and this repository never
changes permission bits, so the `W_OK` access check succeeds exactly on
existing nodes. -/

/-- A filesystem node: a file with text content, or a directory with an
ordered association list of named children (insertion order, as `memfs`
keeps links in insertion order). -/
inductive FNode where
  | file (content : String) : FNode
  | dir (children : List (String × FNode)) : FNode

/-- Ordered children of a directory. -/
abbrev Entries := List (String × FNode)

/-- The empty volume: a bare root directory (`new Volume()`). -/
def emptyVolume : FNode := .dir []

/-- Association-list lookup among a directory's children. -/
def lookupEntry : Entries → String → Option FNode
  | [], _ => none
  | (k, n) :: rest, s => if k = s then some n else lookupEntry rest s

/-- Replace the child named `s` in place if present, otherwise append it
(the behaviour of overwriting/creating a link in `memfs`). -/
def setEntry : Entries → String → FNode → Entries
  | [], s, n => [(s, n)]
  | (k, m) :: rest, s, n =>
      if k = s then (k, n) :: rest else (k, m) :: setEntry rest s n

/-- Remove the child named `s` if present. -/
def removeEntry : Entries → String → Entries
  | [], _ => []
  | (k, m) :: rest, s => if k = s then rest else (k, m) :: removeEntry rest s

/-- The node at a (normalised) segment path, if any. -/
def nodeAt : FNode → List String → Option FNode
  | v, [] => some v
  | .file _, _ :: _ => none
  | .dir c, s :: rest =>
      match lookupEntry c s with
      | none => none
      | some child => nodeAt child rest

/-- Typed filesystem errors surfaced by the `memfs` operations the shell
uses. -/
inductive FsErr where
  | enoent | eisdir | eexist | enotdir
  deriving DecidableEq

/-- Render a filesystem error the way Node/`memfs` renders it for a given
syscall name and path (the shape `CODE: description, op 'path'`). -/
def FsErr.message : FsErr → String → String → String
  | .enoent, op, p => "ENOENT: no such file or directory, " ++ op ++ " '" ++ p ++ "'"
  | .eisdir, op, p => "EISDIR: illegal operation on a directory, " ++ op ++ " '" ++ p ++ "'"
  | .eexist, op, p => "EEXIST: file already exists, " ++ op ++ " '" ++ p ++ "'"
  | .enotdir, op, p => "ENOTDIR: not a directory, " ++ op ++ " '" ++ p ++ "'"

/-- `fs.lstat(p)` restricted to the only field the shell reads,
`stats.isDirectory()`: `none` means the lstat call rejected with `ENOENT`. -/
def lstatIsDir (v : FNode) (p : List String) : Option Bool :=
  (nodeAt v p).map fun n => match n with | .file _ => false | .dir _ => true

/-- `fs.access(p, W_OK)`: succeeds exactly on existing nodes (all nodes this
shell creates are writable). -/
def accessW (v : FNode) (p : List String) : Bool :=
  (nodeAt v p).isSome

/-- `fs.readFile(p, 'utf8')`. -/
def readFileF (v : FNode) (p : List String) : Except FsErr String :=
  match nodeAt v p with
  | some (.file c) => .ok c
  | some (.dir _) => .error .eisdir
  | none => .error .enoent

/-- `fs.writeFile(p, content)`: overwrite or create the file; the parent
directory must already exist. -/
def writeFileF : FNode → List String → String → Except FsErr FNode
  | _, [], _ => .error .eisdir
  | .file _, _ :: _, _ => .error .enotdir
  | .dir c, [s], content =>
      match lookupEntry c s with
      | some (.dir _) => .error .eisdir
      | _ => .ok (.dir (setEntry c s (.file content)))
  | .dir c, s :: s' :: rest, content =>
      match lookupEntry c s with
      | some child =>
          (writeFileF child (s' :: rest) content).map fun child' =>
            .dir (setEntry c s child')
      | none => .error .enoent

/-- `fs.appendFile(p, content)`: append to the file, creating it if absent;
the parent directory must already exist. -/
def appendFileF : FNode → List String → String → Except FsErr FNode
  | _, [], _ => .error .eisdir
  | .file _, _ :: _, _ => .error .enotdir
  | .dir c, [s], content =>
      match lookupEntry c s with
      | some (.dir _) => .error .eisdir
      | some (.file c0) => .ok (.dir (setEntry c s (.file (c0 ++ content))))
      | none => .ok (.dir (setEntry c s (.file content)))
  | .dir c, s :: s' :: rest, content =>
      match lookupEntry c s with
      | some child =>
          (appendFileF child (s' :: rest) content).map fun child' =>
            .dir (setEntry c s child')
      | none => .error .enoent

/-- `fs.mkdir(p)` without `recursive`: the parent must exist, the target
must not. -/
def mkdirF : FNode → List String → Except FsErr FNode
  | _, [] => .error .eexist
  | .file _, _ :: _ => .error .enotdir
  | .dir c, [s] =>
      match lookupEntry c s with
      | some _ => .error .eexist
      | none => .ok (.dir (c ++ [(s, .dir [])]))
  | .dir c, s :: s' :: rest =>
      match lookupEntry c s with
      | some child => (mkdirF child (s' :: rest)).map fun child' => .dir (setEntry c s child')
      | none => .error .enoent

/-- `fs.mkdir(p, { recursive: true })`: create every missing directory along
the path. -/
def mkdirpF : FNode → List String → Except FsErr FNode
  | v, [] => .ok v
  | .file _, _ :: _ => .error .enotdir
  | .dir c, s :: rest =>
      match lookupEntry c s with
      | some child => (mkdirpF child rest).map fun child' => .dir (setEntry c s child')
      | none => (mkdirpF (.dir []) rest).map fun child' => .dir (c ++ [(s, child')])

/-- `fs.rm(p, { recursive: true, force: true })` / `fs.unlink`: remove the
node at `p`; with `force` a missing target leaves the volume unchanged. -/
def removePathF : FNode → List String → FNode
  | v, [] => v
  | .file c, _ :: _ => .file c
  | .dir c, [s] => .dir (removeEntry c s)
  | .dir c, s :: s' :: rest =>
      match lookupEntry c s with
      | some child => .dir (setEntry c s (removePathF child (s' :: rest)))
      | none => .dir c

/-! ## `ERROR_MESSAGES` (src/types.ts) -/

/-- `ERROR_MESSAGES.NO_COMMAND`. -/
def NO_COMMAND (command : String) : String := command ++ ": command not provided"

/-- `ERROR_MESSAGES.ERR_CMD_NOT_FOUND`. -/
def ERR_CMD_NOT_FOUND (command : String) : String := command ++ ": command not found"

/-- `ERROR_MESSAGES.ERR_PERMISSION_DENIED`. -/
def ERR_PERMISSION_DENIED (filePath : String) : String := filePath ++ ": permission denied"

/-- `ERROR_MESSAGES.ERR_NOT_A_DIRECTORY` (note the hard-coded `cd:` tag in
the source). -/
def ERR_NOT_A_DIRECTORY (path : String) : String := "cd: " ++ path ++ ": not a directory"

/-- `ERROR_MESSAGES.ERR_NO_SUCH_DIRECTORY` (note the hard-coded `cd:` tag in
the source). -/
def ERR_NO_SUCH_DIRECTORY (path : String) : String :=
  "cd: " ++ path ++ ": no such file or directory"

/-- `ERROR_MESSAGES.ERR_INVALID_OPERATOR`. -/
def ERR_INVALID_OPERATOR (operator : String) : String := operator ++ ": invalid operator"

/-- `ERROR_MESSAGES.ERR_UNKNOWN`. -/
def ERR_UNKNOWN : String := "An unknown error occurred"

/-- `ERROR_MESSAGES.ERR_INVALID_COMMAND_CLASS`. -/
def ERR_INVALID_COMMAND_CLASS (path : String) : String := path ++ ": invalid command class"

/-- `ERROR_MESSAGES.ERR_MISSING_PATH` (note the hard-coded `cd:` tag in the
source). -/
def ERR_MISSING_PATH : String := "cd: missing operand"

/-- `ERROR_MESSAGES.ERR_MKDIR_CREATE`. -/
def ERR_MKDIR_CREATE (dir message : String) : String :=
  "mkdir: cannot create directory '" ++ dir ++ "': " ++ message

/-! ## Command-line interpretation

`extractRedirection` applies the regex `(.*?)(\s*(?:>>|>)\s*(\S+))$` to the
raw line.  The regex engine finds the earliest position where the suffix
`\s*(?:>>|>)\s*\S+` runs to the end of the string; group 1 (`.*?`) cannot
cross a line terminator, so it covers the text from just after the last
line terminator before that position.  Operator and target are then
recovered by trimming group 2 and splitting it on whitespace, exactly as
the source does. -/

/-- Does `\s*(?:>>|>)\s*\S+$` match this whole character list?  The
alternation tries `>>` first and falls back to `>`, as the regex engine
does. -/
def redirSuffixOk (l : List Char) : Bool :=
  let tailOk : List Char → Bool := fun r =>
    let r' := dropWs r
    !r'.isEmpty && r'.all (fun c => !wsChar c)
  match dropWs l with
  | '>' :: '>' :: r => tailOk r || tailOk ('>' :: r)
  | '>' :: r => tailOk r
  | _ => false

/-- Scan for the earliest suffix position where the redirection pattern
matches; returns `(group1, group2)` as character lists. -/
def redirScan : List Char → List Char → Option (List Char × List Char)
  | seen, rest =>
      if redirSuffixOk rest then some (seen.reverse, rest)
      else
        match rest with
        | [] => none
        | c :: cs => redirScan (c :: seen) cs

/-- Keep only the characters after the last line terminator (the span the
regex metacharacter `.` can cover). -/
def afterLastLineTerm (l : List Char) : List Char :=
  ((l.reverse.takeWhile fun c => !lineTermChar c) : List Char).reverse

/-- The result of `extractRedirection`. -/
structure ParsedRedirection where
  commandInput : String
  redirectionOperator : Option String
  targetFile : Option String
  deriving DecidableEq

/-- `VirtualShell.extractRedirection` (virtual-shell.ts).  When the regex
matches, `commandInput` is group 1 trimmed — falling back to the whole line
when that trims to the empty string — and operator/target come from
splitting the trimmed group 2 on whitespace. -/
def extractRedirection (command : String) : ParsedRedirection :=
  match redirScan [] command.data with
  | none => ⟨command, none, none⟩
  | some (g1, g2) =>
      let commandInput :=
        let t := jsTrim (String.mk (afterLastLineTerm g1))
        if t = "" then command else t
      let details := splitWs (jsTrim (String.mk g2))
      ⟨commandInput, details.head?, details.tail.head?⟩

/-- A token produced by the `shell-quote` parser: a plain string, an
operator entry (`{op}`), or a glob entry (`{op: 'glob', pattern}`). -/
inductive ParseEntry where
  | str (s : String) : ParseEntry
  | op (o : String) : ParseEntry
  | glob (pattern : String) : ParseEntry
  deriving DecidableEq

/-- Tokenizer state and accumulation for the `shell-quote` model: splits on
whitespace, with `'…'` and `"…"` quoting.  Models the external
`shellQuote.parse` on the plain-word fragment the shell's command lines
use (no operator or glob metacharacters). -/
def shellTokensAux : List Char → Option Char → List Char → List String → List String
  | [], _, cur, acc =>
      (if cur.isEmpty then acc else String.mk cur.reverse :: acc).reverse
  | c :: cs, some q, cur, acc =>
      if c = q then shellTokensAux cs none cur acc
      else shellTokensAux cs (some q) (c :: cur) acc
  | c :: cs, none, cur, acc =>
      if wsChar c then
        shellTokensAux cs none [] (if cur.isEmpty then acc else String.mk cur.reverse :: acc)
      else if c = '\'' || c = '"' then shellTokensAux cs (some c) cur acc
      else shellTokensAux cs none (c :: cur) acc

/-- `shellQuote.parse` (external `shell-quote` dependency), modelled on the
plain-word-and-quotes fragment: every token comes out as a string entry. -/
def shellQuoteParse (s : String) : List ParseEntry :=
  (shellTokensAux s.data none [] []).map ParseEntry.str

/-- The command name extracted in `executeCommand`:
`typeof args[0] === 'string' ? args[0] : ''`. -/
def commandNameOf (entries : List ParseEntry) : String :=
  match entries.head? with
  | some (.str s) => s
  | _ => ""

/-- The argument mapping in `executeCommand`: strings stay, glob entries
flatten to their pattern, operator entries to their operator text; empty
results are dropped. -/
def commandArgsOf (entries : List ParseEntry) : List String :=
  (entries.tail.map fun e =>
    match e with
    | .str s => s
    | .glob p => p
    | .op o => o).filter (fun a => a ≠ "")

/-- `VirtualShell.isInvalidCommand`: blank (or whitespace-only) input. -/
def isInvalidCommand (command : String) : Bool :=
  jsTrim command = ""

/-! ## Shell state, streams, hooks, commands -/

/-- The mutable state of a `VirtualShell` instance that commands touch:
the current working directory (an absolute path string) and the filesystem
volume. -/
structure ShellState where
  currentDirectory : String
  volume : FNode

/-- A fresh shell: empty volume, current directory `/` (the constructor
defaults). -/
def freshShell : ShellState := ⟨"/", emptyVolume⟩

/-- Which stream an emitted event belongs to. -/
inductive Stream' where
  | stdout | stderr
  deriving DecidableEq

/-- The namespaced message built by `VirtualShell.stdout`/`stderr`:
`` `bash: ${message}` ``. -/
def shellMessage (message : String) : String := "bash: " ++ message

/-- A command body: `execute(args)` may read and mutate the shell state and
either returns an output string or throws an `Error` whose message is the
payload. -/
def Cmd : Type := ShellState → List String → Except String (String × ShellState)

/-- A pre-hook: keyed by command name, receives the argument list, may
throw.  The `id` names the hook in the execution trace so that "this hook
ran" is observable. -/
structure Hook where
  id : String
  run : List String → Except String Unit

/-- A post-hook: receives the argument list and the command output. -/
structure PostHook where
  id : String
  run : List String → String → Except String Unit

/-- `PreHook.run`: invoke every hook registered for the name in
registration order, stopping at the first failure.  Returns the ids of the
hooks that were invoked and the failure message, if any. -/
def runPreHooks : List Hook → List String → List String × Option String
  | [], _ => ([], none)
  | h :: rest, args =>
      match h.run args with
      | .error e => ([h.id], some e)
      | .ok _ =>
          let (ids, err) := runPreHooks rest args
          (h.id :: ids, err)

/-- `PostHook.run`: like `runPreHooks`, but each hook also receives the
command output. -/
def runPostHooks : List PostHook → List String → String → List String × Option String
  | [], _, _ => ([], none)
  | h :: rest, args, output =>
      match h.run args output with
      | .error e => ([h.id], some e)
      | .ok _ =>
          let (ids, err) := runPostHooks rest args output
          (h.id :: ids, err)

/-- The per-shell configuration `executeCommand` consults: the command
registry (`this.commands`) and the two hook pipelines keyed by command
name. -/
structure ShellCfg where
  registry : List (String × Cmd)
  pre : String → List Hook
  post : String → List PostHook

/-- The property names a plain object literal (`this.commands = {}`)
inherits from `Object.prototype`: the JS `in` operator consults the
prototype chain, so `name in this.commands` is true for these even when no
command was registered under the name, and the subsequent property access
yields the inherited (truthy, non-command) value. -/
def objectPrototypeKeys : List String :=
  ["constructor", "hasOwnProperty", "isPrototypeOf", "propertyIsEnumerable",
   "toLocaleString", "toString", "valueOf", "__defineGetter__",
   "__defineSetter__", "__lookupGetter__", "__lookupSetter__", "__proto__"]

/-- The TypeError message V8 raises when `commandInstance.execute(...)` is
called on a value (inherited from `Object.prototype`) that has no `execute`
method. -/
def TYPEERROR_EXECUTE : String := "commandInstance.execute is not a function"

/-- What `commandName in this.commands` followed by the property access
finds: a registered command (an own property), an `Object.prototype`
property inherited through the chain (truthy but not a command — calling
its `execute` throws a TypeError), or nothing. -/
inductive LookupResult where
  | registered (cmd : Cmd) : LookupResult
  | inherited : LookupResult
  | absent : LookupResult

/-- Own-property lookup on the `this.commands` object. -/
def lookupOwn : List (String × Cmd) → String → Option Cmd
  | [], _ => none
  | (k, c) :: rest, s => if k = s then some c else lookupOwn rest s

/-- Registry lookup (`commandName in this.commands` plus
`this.commands[commandName]`): own properties first, then the
`Object.prototype` chain. -/
def lookupCmd (reg : List (String × Cmd)) (s : String) : LookupResult :=
  match lookupOwn reg s with
  | some c => .registered c
  | none => if s ∈ objectPrototypeKeys then .inherited else .absent

/-- The observable outcome of one `executeCommand` invocation: the string
returned to the caller, the shell state afterwards, the emitted
`stdout`/`stderr` events, and the ids of the pre- and post-hooks that ran. -/
structure Outcome where
  result : String
  state : ShellState
  events : List (Stream' × String)
  preRan : List String
  postRan : List String

/-- The error-message fallback in the orchestrator's catch block:
`(err as Error).message || ERROR_MESSAGES.ERR_UNKNOWN`. -/
def renderErr (e : String) : String :=
  if e = "" then ERR_UNKNOWN else e

/-- Build the outcome of `this.stderr(message)`: the namespaced message is
both returned and emitted as a `stderr` event. -/
def stderrOutcome (st : ShellState) (message : String)
    (preRan postRan : List String) : Outcome :=
  ⟨shellMessage message, st, [(Stream'.stderr, shellMessage message)], preRan, postRan⟩

/-- `VirtualShell.processRedirection` (virtual-shell.ts): resolve the
target, require `access(filePath, W_OK)` to succeed (else
`ERR_PERMISSION_DENIED`), then overwrite for `>`, append for `>>` (each
adding a trailing newline), or report `ERR_INVALID_OPERATOR`; a successful
write returns `this.stdout('')`, a failed write returns
`` this.stderr(`${commandName}: ${errorMessage}`) ``. -/
def processRedirection (output operator targetFile commandName : String)
    (st : ShellState) (preRan postRan : List String) : Outcome :=
  let filePath := resolvePath st.currentDirectory targetFile
  let segs := resolveSegs st.currentDirectory targetFile
  if !accessW st.volume segs then
    stderrOutcome st (ERR_PERMISSION_DENIED filePath) preRan postRan
  else if operator = ">" then
    match writeFileF st.volume segs (output ++ "\n") with
    | .ok v' =>
        ⟨shellMessage "", ⟨st.currentDirectory, v'⟩,
          [(Stream'.stdout, shellMessage "")], preRan, postRan⟩
    | .error e =>
        stderrOutcome st (commandName ++ ": " ++ e.message "open" filePath) preRan postRan
  else if operator = ">>" then
    match appendFileF st.volume segs (output ++ "\n") with
    | .ok v' =>
        ⟨shellMessage "", ⟨st.currentDirectory, v'⟩,
          [(Stream'.stdout, shellMessage "")], preRan, postRan⟩
    | .error e =>
        stderrOutcome st (commandName ++ ": " ++ e.message "open" filePath) preRan postRan
  else
    stderrOutcome st (ERR_INVALID_OPERATOR operator) preRan postRan

/-- The `try` block of `executeCommand`: pre-hooks, command body,
post-hooks, then redirection or the plain output.  Any failure is caught
and mapped to `this.stderr(message)`; the post-hook pipeline is reached
only after the command body returned. -/
def runPipeline (cfg : ShellCfg) (st : ShellState) (er : ParsedRedirection)
    (cmd : Cmd) (commandName : String) (commandArgs : List String) : Outcome :=
  match runPreHooks (cfg.pre commandName) commandArgs with
  | (ids, some e) => stderrOutcome st (renderErr e) ids []
  | (ids, none) =>
      match cmd st commandArgs with
      | .error e => stderrOutcome st (renderErr e) ids []
      | .ok (output, st') =>
          match runPostHooks (cfg.post commandName) commandArgs output with
          | (pids, some e) => stderrOutcome st' (renderErr e) ids pids
          | (pids, none) =>
              match er.redirectionOperator, er.targetFile with
              | some operator, some targetFile =>
                  processRedirection output operator targetFile commandName st' ids pids
              | _, _ => ⟨output, st', [], ids, pids⟩

/-- `VirtualShell.executeCommand` (virtual-shell.ts): validate the line,
extract redirection, tokenize, resolve the command with the `in` check, and
run the pre-hook/body/post-hook pipeline.  A name found only through the
`Object.prototype` chain passes the `in` check and the `!commandInstance`
guard (the inherited value is truthy), so the pipeline runs and calling the
missing `execute` throws a TypeError, behaving like a command body that
throws.  On the success path without redirection the raw command output is
returned as-is (not namespaced, no event). -/
def executeCommand (cfg : ShellCfg) (st : ShellState) (command : String) : Outcome :=
  if isInvalidCommand command then stderrOutcome st (NO_COMMAND "bash") [] []
  else
    let er := extractRedirection command
    let entries := shellQuoteParse er.commandInput
    let commandName := commandNameOf entries
    let commandArgs := commandArgsOf entries
    if commandName = "" then stderrOutcome st (NO_COMMAND "bash") [] []
    else
      match lookupCmd cfg.registry commandName with
      | .absent => stderrOutcome st (ERR_CMD_NOT_FOUND commandName) [] []
      | .inherited =>
          runPipeline cfg st er (fun _ _ => .error TYPEERROR_EXECUTE) commandName commandArgs
      | .registered cmd => runPipeline cfg st er cmd commandName commandArgs

/-- `VirtualShell.changeDirectory` (virtual-shell.ts): resolve the target;
if `lstat` finds a directory, store and return it; if it finds a
non-directory, return `ERR_NOT_A_DIRECTORY`; if `lstat` rejects, return
`ERR_NO_SUCH_DIRECTORY`.  The method never throws — both error cases
*return* the message string. -/
def changeDirectory (st : ShellState) (newPath : String) : String × ShellState :=
  let targetPath := resolvePath st.currentDirectory newPath
  match lstatIsDir st.volume (resolveSegs st.currentDirectory newPath) with
  | some true => (targetPath, ⟨targetPath, st.volume⟩)
  | some false => (ERR_NOT_A_DIRECTORY newPath, st)
  | none => (ERR_NO_SUCH_DIRECTORY newPath, st)

/-! ## Built-in command bodies -/

/-- `EchoCommand.execute`: with no arguments throw `NO_COMMAND('echo')`,
otherwise return the arguments joined by single spaces. -/
def echoExecute : Cmd := fun st args =>
  if args.isEmpty then .error (NO_COMMAND "echo")
  else .ok (joinSep " " args, st)

/-- One iteration of `CatCommand.execute`'s loop for a resolved path: a
directory makes the body throw `ERR_NOT_A_DIRECTORY`, which the loop's own
catch re-wraps as `` `cat: ${basename}: ${message}` `` (the thrown `Error`
has no `code` property); a missing path rejects `lstat` with `ENOENT`,
mapped to `ERR_NO_SUCH_DIRECTORY(basename)`; a file contributes its
content. -/
def catOne (v : FNode) (filePath : String) : Except String String :=
  let base := posixBasename filePath
  match nodeAt v (pathSegs filePath) with
  | none => .error (ERR_NO_SUCH_DIRECTORY base)
  | some (.dir _) => .error ("cat: " ++ base ++ ": " ++ ERR_NOT_A_DIRECTORY base)
  | some (.file c) => .ok c

/-- The fold over `CatCommand.execute`'s resolved paths, accumulating
output. -/
def catLoop (v : FNode) : List String → String → Except String String
  | [], acc => .ok acc
  | p :: rest, acc =>
      match catOne v p with
      | .error e => .error e
      | .ok c => catLoop v rest (acc ++ c)

/-- `CatCommand.execute` (src/commands/cat-command.ts). -/
def catExecute : Cmd := fun st args =>
  if args.isEmpty then .error (NO_COMMAND "cat")
  else
    match catLoop st.volume (args.map (resolvePath st.currentDirectory)) "" with
    | .error e => .error e
    | .ok out => .ok (out, st)

/-- Modelled from the spec: the cd command body (`CdCommand.execute`) is
missing from the staged sources — only `changeDirectory` itself is present
in virtual-shell.ts.  Per the spec, `cd path` throws `MissingOperand`
without a path and otherwise resolves the target through
`changeDirectory(path) → newCurrentDirectory | fails with
NotADirectory/NoSuchDirectory` depending on whether the resolved target
exists and, if it exists, whether it is a directory; a failing built-in
throws the descriptive error (which the orchestrator turns into a stderr
message), while on success the command's own output is empty and the
shell's current directory has been updated. -/
def cdExecute : Cmd := fun st args =>
  match args.head? with
  | none => .error ERR_MISSING_PATH
  | some newPath =>
      match lstatIsDir st.volume (resolveSegs st.currentDirectory newPath) with
      | some true => .ok ("", (changeDirectory st newPath).2)
      | some false => .error (ERR_NOT_A_DIRECTORY newPath)
      | none => .error (ERR_NO_SUCH_DIRECTORY newPath)

/-- The flag-stripping `while` loop of `RmCommand.execute`: consume leading
`-` arguments, accepting only `-r`/`-R` and throwing
`ERR_INVALID_OPERATOR` otherwise; returns the remaining arguments. -/
def rmStripFlags : List String → Except String (List String)
  | [] => .ok []
  | a :: rest =>
      if jsStartsWithChar '-' a then
        if a = "-r" || a = "-R" then rmStripFlags rest
        else .error (ERR_INVALID_OPERATOR a)
      else .ok (a :: rest)

/-- `RmCommand.execute` (unnamed rm command module): parse flags and
targets, then return `''`.  The deletion step — the `rmFunction` /
`executeFunction` call — is commented out in the source, so no filesystem
operation runs and the state is returned untouched. -/
def rmExecute : Cmd := fun st args =>
  if args.isEmpty then .error (NO_COMMAND "rm")
  else
    match rmStripFlags args with
    | .error e => .error e
    | .ok targets =>
        if targets.isEmpty then .error ERR_MISSING_PATH
        else .ok ("", st)

/-- The registry holding the built-in commands the claims exercise, keyed
by the lowercase names command discovery derives from the module file
names. -/
def stdRegistry : List (String × Cmd) :=
  [("cat", catExecute), ("cd", cdExecute), ("echo", echoExecute), ("rm", rmExecute)]

/-- A shell configuration with the standard registry and no hooks. -/
def stdCfg : ShellCfg := ⟨stdRegistry, fun _ => [], fun _ => []⟩

/-! ## The sandbox executor

The base-command module (`setupIsolate`/`executeFunction`) is not among the
staged sources, so the sandbox executor is modelled from the spec's
SandboxExecutor contract. -/

/-- A discovered command module: whether `isValidCommand` accepts its
exported class, and the command it would register. -/
structure CommandModule where
  valid : Bool
  cmd : Cmd

/-- `path.resolve('commands', file)` — resolved against the host working
directory; the claims never inspect the rendered path, so the relative
form names it. -/
def commandPath (file : String) : String := "commands/" ++ file

/-- Overwrite-or-append registration (`this.commands[name] = instance`). -/
def setCmd : List (String × Cmd) → String → Cmd → List (String × Cmd)
  | [], s, c => [(s, c)]
  | (k, c0) :: rest, s, c =>
      if k = s then (k, c) :: rest else (k, c0) :: setCmd rest s c

/-- The loop of `VirtualShell.importCommandModules`: skip non-`.js` files,
lowercase the derived name, register valid modules in order, and throw
`ERR_INVALID_COMMAND_CLASS` at the first invalid one. -/
def importAux (acc : List (String × Cmd)) :
    List (String × CommandModule) → Except String (List (String × Cmd))
  | [] => .ok acc
  | (file, m) :: rest =>
      if !jsEndsWith ".js" file then importAux acc rest
      else
        let commandName := jsToLower (jsReplaceFirst file "-command.js" "")
        if m.valid then importAux (setCmd acc commandName m.cmd) rest
        else .error (ERR_INVALID_COMMAND_CLASS (commandPath file))

/-- `VirtualShell.importCommandModules` run to completion: the registry it
builds, or the `InvalidCommandClass` rejection. -/
def importCommandModules (files : List (String × CommandModule)) :
    Except String (List (String × Cmd)) :=
  importAux [] files

/-- What the `VirtualShell` constructor has produced when it returns: the
shell state, the user, the (still empty) command registry at return time,
and the background import's eventual outcome. -/
structure ShellInit where
  state : ShellState
  user : String
  commandsAtReturn : List (String × Cmd)
  importResult : Except String (List (String × Cmd))

/-- The `VirtualShell` constructor (virtual-shell.ts): set the defaults,
then call `importCommandModules` without `await`.  Dynamic `import()` never
resolves synchronously, so no registration (and no thrown
`InvalidCommandClass`) can happen before the constructor returns —
`commandsAtReturn` is empty and `importResult` is the background promise's
eventual outcome.  Construction itself always completes. -/
def constructShell (currentDirectory user : Option String)
    (files : List (String × CommandModule)) : ShellInit :=
  { state := ⟨currentDirectory.getD "/", emptyVolume⟩
    user := user.getD "guest"
    commandsAtReturn := []
    importResult := importCommandModules files }

/-! ## Volume serialization (`memfs` `toJSON`/`fromJSON` interface)

`VirtualShell.serializeVolume` is `JSON.stringify(this.volume.toJSON())`
and `deserializeVolume` is `Volume.fromJSON(JSON.parse(s))`.  `toJSON`
flattens the volume to an association from absolute paths to file contents,
with an explicit `null` entry for each empty directory (non-empty
directories appear only through their descendants' paths); `fromJSON`
replays the entries in order, creating missing parent directories and
writing each file.  The JSON string itself is an injective rendering of
that association list (and the `/`-joined rendering of a path is injective
on the slash-free segment names path resolution produces), so keys are
modelled as segment lists. -/

/-- One `fromJSON` entry replay: `mkdirp` the parents and write the file
(`some content`), or `mkdirp` the directory itself (`none`).  Collisions
with an existing file node cannot arise when replaying a volume's own
`toJSON` output and leave the volume unchanged here. -/
def insertPath : FNode → List String → Option String → FNode
  | v, [], _ => v
  | .file c, _ :: _, _ => .file c
  | .dir c, [s], some content => .dir (setEntry c s (.file content))
  | .dir c, [s], none =>
      if (lookupEntry c s).isSome then .dir c else .dir (c ++ [(s, .dir [])])
  | .dir c, s :: s' :: rest, content =>
      match lookupEntry c s with
      | some (.dir d) => .dir (setEntry c s (insertPath (.dir d) (s' :: rest) content))
      | some (.file _) => .dir c
      | none => .dir (c ++ [(s, insertPath (.dir []) (s' :: rest) content)])

mutual

/-- `toJSON` of one node reached at `path`: a file yields its content, an
empty directory yields a `null` marker, a non-empty directory yields its
children's entries. -/
def serNode (path : List String) : FNode → List (List String × Option String)
  | .file c => [(path, some c)]
  | .dir [] => [(path, none)]
  | .dir (e :: es) => serEntries path (e :: es)

/-- `toJSON` of a directory's children, in link order. -/
def serEntries (pre : List String) : Entries → List (List String × Option String)
  | [] => []
  | (name, n) :: rest => serNode (pre ++ [name]) n ++ serEntries pre rest

end

/-- `VirtualShell.serializeVolume`: the volume flattened by `toJSON` (the
root is always a directory). -/
def serializeVolume (v : FNode) : List (List String × Option String) :=
  match v with
  | .file c => [([], some c)]
  | .dir c => serEntries [] c

/-- `VirtualShell.deserializeVolume`: reset to an empty volume and replay
the serialized entries with `fromJSON`. -/
def deserializeVolume (l : List (List String × Option String)) : FNode :=
  l.foldl (fun v pc => insertPath v pc.1 pc.2) emptyVolume

/-! ## Filesystem mutations and well-formedness -/

/-- A filesystem mutation through the shell's `fs` surface, with an
absolute target path.  A failing operation rejects and leaves the volume
unchanged. -/
inductive Mut where
  | write (path content : String) : Mut
  | append (path content : String) : Mut
  | mkdir (path : String) : Mut
  | mkdirp (path : String) : Mut
  | remove (path : String) : Mut

/-- Apply one mutation to a volume. -/
def applyMut (v : FNode) : Mut → FNode
  | .write p c =>
      match writeFileF v (resolveSegs "/" p) c with
      | .ok v' => v'
      | .error _ => v
  | .append p c =>
      match appendFileF v (resolveSegs "/" p) c with
      | .ok v' => v'
      | .error _ => v
  | .mkdir p =>
      match mkdirF v (resolveSegs "/" p) with
      | .ok v' => v'
      | .error _ => v
  | .mkdirp p =>
      match mkdirpF v (resolveSegs "/" p) with
      | .ok v' => v'
      | .error _ => v
  | .remove p => removePathF v (resolveSegs "/" p)

/-- Apply a sequence of mutations, oldest first. -/
def applyMuts (muts : List Mut) (v : FNode) : FNode :=
  muts.foldl applyMut v

mutual

/-- Well-formed node: every directory's children have distinct names. -/
def wfNode : FNode → Bool
  | .file _ => true
  | .dir c => wfEntries c

/-- Well-formed children list: names distinct, children well-formed. -/
def wfEntries : Entries → Bool
  | [] => true
  | (name, n) :: rest =>
      !(lookupEntry rest name).isSome && wfNode n && wfEntries rest

end

/-! ## Helpers used to state the round-trip theorem's proof -/

/-- Replace the node at an existing path. -/
def updateAt : FNode → List String → FNode → FNode
  | _, [], n => n
  | .file c, _ :: _, _ => .file c
  | .dir c, s :: rest, n =>
      match lookupEntry c s with
      | some child => .dir (setEntry c s (updateAt child rest n))
      | none => .dir c

/-- A chain of singleton directories ending in the given children. -/
def chainDir : List String → Entries → FNode
  | [], e => .dir e
  | s :: q, e => .dir [(s, chainDir q e)]

/-- The children a replayed serialization leaves at the mount point:
appended directly when no intermediate path is missing, otherwise wrapped
in the freshly created directory chain. -/
def mergeAt (c1 : Entries) (pre2 : List String) (e : Entries) : Entries :=
  match pre2 with
  | [] => c1 ++ e
  | s :: q => c1 ++ [(s, chainDir q e)]

/-- Replay serialized entries into an arbitrary starting volume
(`deserializeVolume` is `foldIns · emptyVolume`). -/
def foldIns (l : List (List String × Option String)) (v : FNode) : FNode :=
  l.foldl (fun w pc => insertPath w pc.1 pc.2) v

/-! # Theorems

First a small library about the association lists and paths of the volume
model, then one theorem (plus counterexample/witness) per claim. -/

theorem lookupEntry_setEntry_self (c : Entries) (s : String) (n : FNode) :
    lookupEntry (setEntry c s n) s = some n := by
  induction c with
  | nil => simp [setEntry, lookupEntry]
  | cons e rest ih =>
      obtain ⟨k, m⟩ := e
      by_cases h : k = s
      · simp [setEntry, lookupEntry, h]
      · simp [setEntry, lookupEntry, h, ih]

theorem lookupEntry_setEntry_ne (c : Entries) (s k : String) (n : FNode)
    (h : ¬s = k) : lookupEntry (setEntry c s n) k = lookupEntry c k := by
  induction c with
  | nil => simp [setEntry, lookupEntry, h]
  | cons e rest ih =>
      obtain ⟨k0, m⟩ := e
      by_cases h0 : k0 = s
      · subst h0
        simp [setEntry, lookupEntry, h]
      · simp only [setEntry, if_neg h0, lookupEntry]
        by_cases h1 : k0 = k
        · simp [h1]
        · simp [h1, ih]

theorem setEntry_setEntry_self (c : Entries) (s : String) (a b : FNode) :
    setEntry (setEntry c s a) s b = setEntry c s b := by
  induction c with
  | nil => simp [setEntry]
  | cons e rest ih =>
      obtain ⟨k, m⟩ := e
      by_cases h : k = s
      · simp [setEntry, h]
      · simp [setEntry, h, ih]

theorem lookupEntry_append (c d : Entries) (s : String) :
    lookupEntry (c ++ d) s =
      match lookupEntry c s with
      | some n => some n
      | none => lookupEntry d s := by
  induction c with
  | nil => simp [lookupEntry]
  | cons e rest ih =>
      obtain ⟨k, m⟩ := e
      by_cases h : k = s
      · simp [lookupEntry, h]
      · simp [lookupEntry, h, ih]

theorem setEntry_absent (c : Entries) (s : String) (n : FNode)
    (h : lookupEntry c s = none) : setEntry c s n = c ++ [(s, n)] := by
  induction c with
  | nil => simp [setEntry]
  | cons e rest ih =>
      obtain ⟨k, m⟩ := e
      by_cases h0 : k = s
      · simp [lookupEntry, h0] at h
      · simp [lookupEntry, h0] at h
        simp [setEntry, h0, ih h]

theorem setEntry_append_self (c : Entries) (s : String) (a b : FNode)
    (h : lookupEntry c s = none) :
    setEntry (c ++ [(s, a)]) s b = c ++ [(s, b)] := by
  induction c with
  | nil => simp [setEntry]
  | cons e rest ih =>
      obtain ⟨k, m⟩ := e
      by_cases h0 : k = s
      · simp [lookupEntry, h0] at h
      · simp [lookupEntry, h0] at h
        simp [setEntry, h0, ih h]

theorem nodeAt_append (v : FNode) (p q : List String) :
    nodeAt v (p ++ q) = (nodeAt v p).bind (fun w => nodeAt w q) := by
  induction p generalizing v with
  | nil => simp [nodeAt]
  | cons s rest ih =>
      cases v with
      | file c => simp [nodeAt]
      | dir c =>
          simp only [List.cons_append, nodeAt]
          cases lookupEntry c s with
          | none => simp
          | some child => simp [ih]

theorem nodeAt_updateAt_self (v w n : FNode) (p : List String)
    (h : nodeAt v p = some w) : nodeAt (updateAt v p n) p = some n := by
  induction p generalizing v with
  | nil => simp [nodeAt, updateAt]
  | cons s rest ih =>
      cases v with
      | file c => simp [nodeAt] at h
      | dir c =>
          simp only [nodeAt] at h
          cases hl : lookupEntry c s with
          | none => rw [hl] at h; simp at h
          | some child =>
              rw [hl] at h
              simp only [updateAt, hl, nodeAt, lookupEntry_setEntry_self]
              exact ih child h

theorem updateAt_updateAt (v w : FNode) (p : List String) (a b : FNode)
    (h : nodeAt v p = some w) :
    updateAt (updateAt v p a) p b = updateAt v p b := by
  induction p generalizing v with
  | nil => simp [updateAt]
  | cons s rest ih =>
      cases v with
      | file c => simp [updateAt]
      | dir c =>
          simp only [nodeAt] at h
          cases hl : lookupEntry c s with
          | none => rw [hl] at h; simp at h
          | some child =>
              rw [hl] at h
              simp only [updateAt, hl, lookupEntry_setEntry_self,
                setEntry_setEntry_self]
              rw [ih child h]

theorem updateAt_append (v w n : FNode) (p q : List String)
    (h : nodeAt v p = some w) :
    updateAt v (p ++ q) n = updateAt v p (updateAt w q n) := by
  induction p generalizing v with
  | nil => simp [nodeAt] at h; simp [updateAt, h]
  | cons s rest ih =>
      cases v with
      | file c => simp [updateAt]
      | dir c =>
          simp only [nodeAt] at h
          cases hl : lookupEntry c s with
          | none => rw [hl] at h; simp at h
          | some child =>
              rw [hl] at h
              simp only [List.cons_append, updateAt, hl, List.append_eq]
              rw [ih child h]

theorem nodeAt_chainDir (q : List String) (e : Entries) :
    nodeAt (chainDir q e) q = some (.dir e) := by
  induction q with
  | nil => simp [chainDir, nodeAt]
  | cons s rest ih => simp [chainDir, nodeAt, lookupEntry, ih]

theorem updateAt_chainDir (q : List String) (d e : Entries) :
    updateAt (chainDir q d) q (.dir e) = chainDir q e := by
  induction q with
  | nil => simp [chainDir, updateAt]
  | cons s rest ih => simp [chainDir, updateAt, lookupEntry, setEntry, ih]

theorem chainDir_append (q : List String) (name : String) (e : Entries) :
    chainDir (q ++ [name]) e = chainDir q [(name, .dir e)] := by
  induction q with
  | nil => simp [chainDir]
  | cons s rest ih => simp [chainDir, ih]

theorem insertPath_final_some (v : FNode) (pre : List String) (c : Entries)
    (s content : String) (h : nodeAt v pre = some (.dir c)) :
    insertPath v (pre ++ [s]) (some content)
      = updateAt v pre (.dir (setEntry c s (.file content))) := by
  induction pre generalizing v with
  | nil =>
      simp only [nodeAt, Option.some.injEq] at h
      subst h
      simp [insertPath, updateAt]
  | cons s0 rest ih =>
      cases v with
      | file c0 => simp [nodeAt] at h
      | dir c0 =>
          cases hl : lookupEntry c0 s0 with
          | none => simp [nodeAt, hl] at h
          | some child =>
              simp only [nodeAt, hl] at h
              cases child with
              | file cc =>
                  cases rest with
                  | nil => simp [nodeAt] at h
                  | cons b bs => simp [nodeAt] at h
              | dir d =>
                  cases hrest : rest ++ [s] with
                  | nil => simp at hrest
                  | cons a as =>
                      simp only [List.cons_append, hrest, insertPath, hl]
                      rw [← hrest, ih (.dir d) h]
                      simp [updateAt, hl]

theorem insertPath_final_none (v : FNode) (pre : List String) (c : Entries)
    (s : String) (h : nodeAt v pre = some (.dir c))
    (habs : lookupEntry c s = none) :
    insertPath v (pre ++ [s]) none
      = updateAt v pre (.dir (c ++ [(s, .dir [])])) := by
  induction pre generalizing v with
  | nil =>
      simp only [nodeAt, Option.some.injEq] at h
      subst h
      simp [insertPath, updateAt, habs]
  | cons s0 rest ih =>
      cases v with
      | file c0 => simp [nodeAt] at h
      | dir c0 =>
          cases hl : lookupEntry c0 s0 with
          | none => simp [nodeAt, hl] at h
          | some child =>
              simp only [nodeAt, hl] at h
              cases child with
              | file cc =>
                  cases rest with
                  | nil => simp [nodeAt] at h
                  | cons b bs => simp [nodeAt] at h
              | dir d =>
                  cases hrest : rest ++ [s] with
                  | nil => simp at hrest
                  | cons a as =>
                      simp only [List.cons_append, hrest, insertPath, hl]
                      rw [← hrest, ih (.dir d) h]
                      simp [updateAt, hl]

theorem insertPath_deep_missing (v : FNode) (pre : List String) (c : Entries)
    (s : String) (q : List String) (content : Option String)
    (h : nodeAt v pre = some (.dir c)) (habs : lookupEntry c s = none)
    (hq : q ≠ []) :
    insertPath v (pre ++ s :: q) content
      = updateAt v pre (.dir (c ++ [(s, insertPath (.dir []) q content)])) := by
  induction pre generalizing v with
  | nil =>
      simp only [nodeAt, Option.some.injEq] at h
      subst h
      cases q with
      | nil => exact absurd rfl hq
      | cons a as => simp [insertPath, updateAt, habs]
  | cons s0 rest ih =>
      cases v with
      | file c0 => simp [nodeAt] at h
      | dir c0 =>
          cases hl : lookupEntry c0 s0 with
          | none => simp [nodeAt, hl] at h
          | some child =>
              simp only [nodeAt, hl] at h
              cases child with
              | file cc =>
                  cases rest with
                  | nil => simp [nodeAt] at h
                  | cons b bs => simp [nodeAt] at h
              | dir d =>
                  cases hrest : rest ++ s :: q with
                  | nil => simp at hrest
                  | cons a as =>
                      simp only [List.cons_append, hrest, insertPath, hl]
                      rw [← hrest, ih (.dir d) h]
                      simp [updateAt, hl]

theorem insertPath_fresh_some (q : List String) (name content : String) :
    insertPath (.dir []) (q ++ [name]) (some content)
      = chainDir q [(name, .file content)] := by
  induction q with
  | nil => simp [insertPath, chainDir, setEntry]
  | cons s rest ih =>
      cases hrest : rest ++ [name] with
      | nil => simp at hrest
      | cons a as =>
          simp only [List.cons_append, insertPath, hrest, lookupEntry, chainDir]
          rw [← hrest, ih]
          simp

theorem insertPath_fresh_none (q : List String) (name : String) :
    insertPath (.dir []) (q ++ [name]) none
      = chainDir q [(name, .dir [])] := by
  induction q with
  | nil => simp [insertPath, chainDir, lookupEntry]
  | cons s rest ih =>
      cases hrest : rest ++ [name] with
      | nil => simp at hrest
      | cons a as =>
          simp only [List.cons_append, insertPath, hrest, lookupEntry, chainDir]
          rw [← hrest, ih]
          simp

theorem writeFileF_at_file (s : String) (rest : List String) (v : FNode)
    (c0 x : String) (h : nodeAt v (s :: rest) = some (.file c0)) :
    writeFileF v (s :: rest) x = .ok (updateAt v (s :: rest) (.file x)) := by
  induction rest generalizing v s with
  | nil =>
      cases v with
      | file c => simp [nodeAt] at h
      | dir c =>
          simp only [nodeAt] at h
          cases hl : lookupEntry c s with
          | none => rw [hl] at h; simp at h
          | some child =>
              rw [hl] at h
              simp only [nodeAt, Option.some.injEq] at h
              subst h
              simp [writeFileF, hl, updateAt]
  | cons s' rest' ih =>
      cases v with
      | file c => simp [nodeAt] at h
      | dir c =>
          simp only [nodeAt] at h
          cases hl : lookupEntry c s with
          | none => rw [hl] at h; simp at h
          | some child =>
              rw [hl] at h
              simp only [writeFileF, hl, updateAt, ih s' child h]
              rfl

theorem appendFileF_at_file (s : String) (rest : List String) (v : FNode)
    (c0 x : String) (h : nodeAt v (s :: rest) = some (.file c0)) :
    appendFileF v (s :: rest) x
      = .ok (updateAt v (s :: rest) (.file (c0 ++ x))) := by
  induction rest generalizing v s with
  | nil =>
      cases v with
      | file c => simp [nodeAt] at h
      | dir c =>
          simp only [nodeAt] at h
          cases hl : lookupEntry c s with
          | none => rw [hl] at h; simp at h
          | some child =>
              rw [hl] at h
              simp only [nodeAt, Option.some.injEq] at h
              subst h
              simp [appendFileF, hl, updateAt]
  | cons s' rest' ih =>
      cases v with
      | file c => simp [nodeAt] at h
      | dir c =>
          simp only [nodeAt] at h
          cases hl : lookupEntry c s with
          | none => rw [hl] at h; simp at h
          | some child =>
              rw [hl] at h
              simp only [appendFileF, hl, updateAt, ih s' child h]
              rfl

theorem foldIns_append (a b : List (List String × Option String)) (v : FNode) :
    foldIns (a ++ b) v = foldIns b (foldIns a v) := by
  simp [foldIns, List.foldl_append]

theorem foldIns_single (p : List String) (c : Option String) (v : FNode) :
    foldIns [(p, c)] v = insertPath v p c := by
  simp [foldIns]

theorem foldIns_nil (v : FNode) : foldIns [] v = v := rfl

theorem lookupEntry_isSome_of_mem (rest : Entries) (k : String)
    (h : k ∈ rest.map Prod.fst) : (lookupEntry rest k).isSome = true := by
  induction rest with
  | nil => simp at h
  | cons e r ih =>
      obtain ⟨k0, m⟩ := e
      simp only [List.map_cons, List.mem_cons] at h
      by_cases h0 : k0 = k
      · simp [lookupEntry, h0]
      · rcases h with h | h
        · exact absurd h.symm h0
        · simp [lookupEntry, h0, ih h]

/-- The core of the round-trip theorem: replaying the serialization of a
well-formed children list `e`, taken from mount point `pre1 ++ pre2`, into
a volume where `pre1` exists as a directory (with children `c1` that do not
collide with the replay), rebuilds exactly `e` there — appended to `c1`
when `pre2 = []`, inside a freshly created directory chain otherwise. -/
theorem foldIns_serEntries :
    ∀ (n : Nat) (e : Entries), sizeOf e ≤ n →
    ∀ (v : FNode) (pre1 pre2 : List String) (c1 : Entries),
      nodeAt v pre1 = some (.dir c1) →
      wfEntries e = true →
      e ≠ [] →
      (pre2 = [] → ∀ name ∈ e.map Prod.fst, lookupEntry c1 name = none) →
      (∀ s0, pre2.head? = some s0 → lookupEntry c1 s0 = none) →
      foldIns (serEntries (pre1 ++ pre2) e) v
        = updateAt v pre1 (.dir (mergeAt c1 pre2 e)) := by
  intro n
  induction n with
  | zero =>
      intro e he
      cases e with
      | nil => intro _ _ _ _ _ _ hne _; exact absurd rfl hne
      | cons x r => simp [List.cons.sizeOf_spec] at he
  | succ n ih =>
      intro e he v pre1 pre2 c1 hat hwf hne hdisj hhead
      cases e with
      | nil => exact absurd rfl hne
      | cons hd rest =>
          obtain ⟨name, node⟩ := hd
          have hwf' := hwf
          simp only [wfEntries, Bool.and_eq_true, Bool.not_eq_true'] at hwf'
          obtain ⟨⟨hnm, hwn⟩, hwr⟩ := hwf'
          have hrest_size : sizeOf rest ≤ n := by
            simp only [List.cons.sizeOf_spec, Prod.mk.sizeOf_spec] at he
            omega
          cases pre2 with
          | nil =>
              have hdisj' := hdisj rfl
              have hname : lookupEntry c1 name = none := by
                apply hdisj'
                simp
              have hstep1 :
                  foldIns (serNode (pre1 ++ [name]) node) v
                    = updateAt v pre1 (.dir (c1 ++ [(name, node)])) := by
                cases node with
                | file c =>
                    rw [serNode, foldIns_single,
                      insertPath_final_some v pre1 c1 name c hat,
                      setEntry_absent c1 name _ hname]
                | dir d =>
                    cases d with
                    | nil =>
                        rw [serNode, foldIns_single,
                          insertPath_final_none v pre1 c1 name hat hname]
                    | cons d0 ds =>
                        have hd_size : sizeOf (d0 :: ds) ≤ n := by
                          simp only [List.cons.sizeOf_spec, Prod.mk.sizeOf_spec,
                            FNode.dir.sizeOf_spec] at he
                          simp only [List.cons.sizeOf_spec]
                          omega
                        have hih := ih (d0 :: ds) hd_size v pre1 [name] c1 hat
                          (by simpa [wfNode] using hwn)
                          (by simp)
                          (by intro h; simp at h)
                          (by intro s0 hs0; simp at hs0; rw [← hs0]; exact hname)
                        rw [serNode, hih]
                        simp [mergeAt, chainDir]
              cases rest with
              | nil =>
                  simp only [List.append_nil, serEntries, foldIns_append, foldIns_nil,
                    hstep1, mergeAt]
              | cons r rs =>
                  have hat1 : nodeAt (updateAt v pre1 (.dir (c1 ++ [(name, node)]))) pre1
                      = some (.dir (c1 ++ [(name, node)])) :=
                    nodeAt_updateAt_self v _ _ pre1 hat
                  have hdisj1 : ∀ k ∈ (r :: rs).map Prod.fst,
                      lookupEntry (c1 ++ [(name, node)]) k = none := by
                    intro k hk
                    have hkc1 : lookupEntry c1 k = none := by
                      apply hdisj'
                      simp only [List.map_cons, List.mem_cons]
                      right
                      simpa using hk
                    have hkname : ¬name = k := by
                      intro hkn
                      rw [hkn] at hnm
                      have := lookupEntry_isSome_of_mem (r :: rs) k hk
                      rw [hnm] at this
                      simp at this
                    rw [lookupEntry_append, hkc1]
                    simp [lookupEntry, hkname]
                  have hrec := ih (r :: rs) hrest_size
                    (updateAt v pre1 (.dir (c1 ++ [(name, node)]))) pre1 [] _ hat1
                    hwr (by simp) (fun _ => hdisj1) (by intro s0 hs0; simp at hs0)
                  simp only [List.append_nil, mergeAt] at hrec
                  rw [List.append_nil, serEntries, foldIns_append, hstep1, hrec,
                    updateAt_updateAt v _ pre1 _ _ hat]
                  simp [mergeAt]
          | cons s0 q =>
              have hs0 : lookupEntry c1 s0 = none := hhead s0 rfl
              have hstep1 :
                  foldIns (serNode ((pre1 ++ s0 :: q) ++ [name]) node) v
                    = updateAt v pre1 (.dir (c1 ++ [(s0, chainDir q [(name, node)])])) := by
                have hpath : (pre1 ++ s0 :: q) ++ [name] = pre1 ++ s0 :: (q ++ [name]) := by
                  simp
                cases node with
                | file c =>
                    rw [serNode, foldIns_single, hpath,
                      insertPath_deep_missing v pre1 c1 s0 (q ++ [name]) (some c) hat hs0
                        (by simp),
                      insertPath_fresh_some]
                | dir d =>
                    cases d with
                    | nil =>
                        rw [serNode, foldIns_single, hpath,
                          insertPath_deep_missing v pre1 c1 s0 (q ++ [name]) none hat hs0
                            (by simp),
                          insertPath_fresh_none]
                    | cons d0 ds =>
                        have hd_size : sizeOf (d0 :: ds) ≤ n := by
                          simp only [List.cons.sizeOf_spec, Prod.mk.sizeOf_spec,
                            FNode.dir.sizeOf_spec] at he
                          simp only [List.cons.sizeOf_spec]
                          omega
                        have hih := ih (d0 :: ds) hd_size v pre1 ((s0 :: q) ++ [name]) c1 hat
                          (by simpa [wfNode] using hwn)
                          (by simp)
                          (by intro h; simp at h)
                          (by intro t ht; simp at ht; rw [← ht]; exact hs0)
                        rw [serNode]
                        simp only [List.append_assoc, List.cons_append] at hih ⊢
                        rw [hih]
                        simp only [mergeAt, chainDir_append]
              cases rest with
              | nil =>
                  rw [serEntries, foldIns_append, serEntries, foldIns_nil, hstep1]
                  simp only [mergeAt]
              | cons r rs =>
                  have hW : nodeAt (updateAt v pre1
                      (.dir (c1 ++ [(s0, chainDir q [(name, node)])]))) pre1
                      = some (.dir (c1 ++ [(s0, chainDir q [(name, node)])])) :=
                    nodeAt_updateAt_self v _ _ pre1 hat
                  have hlookW : lookupEntry (c1 ++ [(s0, chainDir q [(name, node)])]) s0
                      = some (chainDir q [(name, node)]) := by
                    rw [lookupEntry_append, hs0]
                    simp [lookupEntry]
                  have hat1 : nodeAt (updateAt v pre1
                      (.dir (c1 ++ [(s0, chainDir q [(name, node)])]))) (pre1 ++ s0 :: q)
                      = some (.dir [(name, node)]) := by
                    rw [nodeAt_append, hW]
                    show nodeAt (.dir (c1 ++ [(s0, chainDir q [(name, node)])])) (s0 :: q)
                        = some (.dir [(name, node)])
                    simp only [nodeAt, hlookW]
                    exact nodeAt_chainDir q [(name, node)]
                  have hdisj1 : ∀ k ∈ (r :: rs).map Prod.fst,
                      lookupEntry [(name, node)] k = none := by
                    intro k hk
                    have hkname : ¬name = k := by
                      intro hkn
                      rw [hkn] at hnm
                      have := lookupEntry_isSome_of_mem (r :: rs) k hk
                      rw [hnm] at this
                      simp at this
                    simp [lookupEntry, hkname]
                  have hrec := ih (r :: rs) hrest_size
                    (updateAt v pre1 (.dir (c1 ++ [(s0, chainDir q [(name, node)])])))
                    (pre1 ++ s0 :: q) [] _ hat1
                    hwr (by simp) (fun _ => hdisj1) (by intro t ht; simp at ht)
                  simp only [List.append_nil, mergeAt] at hrec
                  have hfinal : updateAt (updateAt v pre1
                        (.dir (c1 ++ [(s0, chainDir q [(name, node)])])))
                        (pre1 ++ s0 :: q) (.dir ([(name, node)] ++ (r :: rs)))
                      = updateAt v pre1
                        (.dir (c1 ++ [(s0, chainDir q ((name, node) :: r :: rs))])) := by
                    rw [updateAt_append _ _ _ pre1 (s0 :: q) hW]
                    have hmid : updateAt (.dir (c1 ++ [(s0, chainDir q [(name, node)])]))
                          (s0 :: q) (.dir ([(name, node)] ++ (r :: rs)))
                        = .dir (c1 ++ [(s0, chainDir q ((name, node) :: r :: rs))]) := by
                      simp only [updateAt, hlookW, updateAt_chainDir,
                        setEntry_append_self c1 s0 _ _ hs0]
                      simp
                    rw [hmid, updateAt_updateAt v _ pre1 _ _ hat]
                  rw [serEntries, foldIns_append, hstep1, hrec, hfinal]
                  simp only [mergeAt]

/-- Round trip on a single well-formed volume: replaying `toJSON` output
into a fresh volume rebuilds the identical tree. -/
theorem deserialize_serialize (c : Entries) (h : wfEntries c = true) :
    deserializeVolume (serializeVolume (.dir c)) = .dir c := by
  cases c with
  | nil => rfl
  | cons e rest =>
      have hmain := foldIns_serEntries (sizeOf (e :: rest)) (e :: rest) le_rfl
        emptyVolume [] [] [] rfl h (by simp)
        (fun _ => by intro name _; rfl)
        (by intro s0 hs0; simp at hs0)
      simpa [serializeVolume, deserializeVolume, foldIns, updateAt, mergeAt,
        emptyVolume] using hmain

theorem wfNode_of_lookupEntry (c : Entries) (s : String) (child : FNode)
    (hc : wfEntries c = true) (hl : lookupEntry c s = some child) :
    wfNode child = true := by
  induction c with
  | nil => simp [lookupEntry] at hl
  | cons e rest ih =>
      obtain ⟨k, m⟩ := e
      simp only [wfEntries, Bool.and_eq_true] at hc
      by_cases h0 : k = s
      · simp only [lookupEntry, if_pos h0, Option.some.injEq] at hl
        rw [← hl]
        exact hc.1.2
      · simp only [lookupEntry, if_neg h0] at hl
        exact ih hc.2 hl

theorem wfEntries_setEntry (c : Entries) (s : String) (n : FNode)
    (hc : wfEntries c = true) (hn : wfNode n = true) :
    wfEntries (setEntry c s n) = true := by
  induction c with
  | nil => simp [setEntry, wfEntries, lookupEntry, hn]
  | cons e rest ih =>
      obtain ⟨k, m⟩ := e
      simp only [wfEntries, Bool.and_eq_true, Bool.not_eq_true'] at hc
      obtain ⟨⟨hlk, hm⟩, hr⟩ := hc
      by_cases h0 : k = s
      · simp only [setEntry, if_pos h0, wfEntries, Bool.and_eq_true, Bool.not_eq_true']
        exact ⟨⟨hlk, hn⟩, hr⟩
      · simp only [setEntry, if_neg h0, wfEntries, Bool.and_eq_true, Bool.not_eq_true']
        refine ⟨⟨?_, hm⟩, ih hr⟩
        rw [lookupEntry_setEntry_ne rest s k n (fun hsk => h0 hsk.symm)]
        exact hlk

theorem isSome_false_eq_none {A : Type} {o : Option A} (h : o.isSome = false) :
    o = none := by
  cases o <;> simp at h ⊢

theorem wfEntries_append_one (c : Entries) (s : String) (n : FNode)
    (hc : wfEntries c = true) (habs : lookupEntry c s = none)
    (hn : wfNode n = true) : wfEntries (c ++ [(s, n)]) = true := by
  induction c with
  | nil => simp [wfEntries, lookupEntry, hn]
  | cons e rest ih =>
      obtain ⟨k, m⟩ := e
      simp only [wfEntries, Bool.and_eq_true, Bool.not_eq_true'] at hc
      obtain ⟨⟨hlk, hm⟩, hr⟩ := hc
      by_cases h0 : k = s
      · simp [lookupEntry, h0] at habs
      · simp only [lookupEntry, if_neg h0] at habs
        simp only [List.cons_append, wfEntries, Bool.and_eq_true, Bool.not_eq_true']
        refine ⟨⟨?_, hm⟩, ih hr habs⟩
        show (lookupEntry (rest ++ [(s, n)]) k).isSome = false
        have hsk : ¬s = k := fun h' => h0 (Eq.symm h')
        rw [lookupEntry_append, isSome_false_eq_none hlk]
        simp [lookupEntry, hsk]

theorem writeFileF_wf (p : List String) : ∀ (v : FNode) (x : String) (v' : FNode),
    wfNode v = true → writeFileF v p x = .ok v' → wfNode v' = true := by
  induction p with
  | nil => intro v x v' _ h; simp [writeFileF] at h
  | cons s rest ih =>
      intro v x v' hwf h
      cases v with
      | file c => simp [writeFileF] at h
      | dir c =>
          simp only [wfNode] at hwf
          cases rest with
          | nil =>
              simp only [writeFileF] at h
              split at h
              · simp at h
              · simp only [Except.ok.injEq] at h
                rw [← h]
                simp only [wfNode]
                exact wfEntries_setEntry c s (.file x) hwf (by simp [wfNode])
          | cons s' rest' =>
              simp only [writeFileF] at h
              split at h
              · next child hl =>
                  cases hres : writeFileF child (s' :: rest') x with
                  | error e => rw [hres] at h; simp [Except.map] at h
                  | ok child' =>
                      rw [hres] at h
                      simp only [Except.map, Except.ok.injEq] at h
                      rw [← h]
                      simp only [wfNode]
                      exact wfEntries_setEntry c s child' hwf
                        (ih child x child' (wfNode_of_lookupEntry c s child hwf hl) hres)
              · simp at h

theorem appendFileF_wf (p : List String) : ∀ (v : FNode) (x : String) (v' : FNode),
    wfNode v = true → appendFileF v p x = .ok v' → wfNode v' = true := by
  induction p with
  | nil => intro v x v' _ h; simp [appendFileF] at h
  | cons s rest ih =>
      intro v x v' hwf h
      cases v with
      | file c => simp [appendFileF] at h
      | dir c =>
          simp only [wfNode] at hwf
          cases rest with
          | nil =>
              simp only [appendFileF] at h
              split at h
              · simp at h
              · simp only [Except.ok.injEq] at h
                rw [← h]
                simp only [wfNode]
                exact wfEntries_setEntry c s _ hwf (by simp [wfNode])
              · simp only [Except.ok.injEq] at h
                rw [← h]
                simp only [wfNode]
                exact wfEntries_setEntry c s _ hwf (by simp [wfNode])
          | cons s' rest' =>
              simp only [appendFileF] at h
              split at h
              · next child hl =>
                  cases hres : appendFileF child (s' :: rest') x with
                  | error e => rw [hres] at h; simp [Except.map] at h
                  | ok child' =>
                      rw [hres] at h
                      simp only [Except.map, Except.ok.injEq] at h
                      rw [← h]
                      simp only [wfNode]
                      exact wfEntries_setEntry c s child' hwf
                        (ih child x child' (wfNode_of_lookupEntry c s child hwf hl) hres)
              · simp at h

theorem mkdirF_wf (p : List String) : ∀ (v : FNode) (v' : FNode),
    wfNode v = true → mkdirF v p = .ok v' → wfNode v' = true := by
  induction p with
  | nil => intro v v' _ h; simp [mkdirF] at h
  | cons s rest ih =>
      intro v v' hwf h
      cases v with
      | file c => simp [mkdirF] at h
      | dir c =>
          simp only [wfNode] at hwf
          cases rest with
          | nil =>
              simp only [mkdirF] at h
              split at h
              · simp at h
              · next hl =>
                  simp only [Except.ok.injEq] at h
                  rw [← h]
                  simp only [wfNode]
                  exact wfEntries_append_one c s (.dir []) hwf hl
                    (by simp [wfNode, wfEntries])
          | cons s' rest' =>
              simp only [mkdirF] at h
              split at h
              · next child hl =>
                  cases hres : mkdirF child (s' :: rest') with
                  | error e => rw [hres] at h; simp [Except.map] at h
                  | ok child' =>
                      rw [hres] at h
                      simp only [Except.map, Except.ok.injEq] at h
                      rw [← h]
                      simp only [wfNode]
                      exact wfEntries_setEntry c s child' hwf
                        (ih child child' (wfNode_of_lookupEntry c s child hwf hl) hres)
              · simp at h

theorem mkdirpF_wf (p : List String) : ∀ (v : FNode) (v' : FNode),
    wfNode v = true → mkdirpF v p = .ok v' → wfNode v' = true := by
  induction p with
  | nil =>
      intro v v' hwf h
      simp only [mkdirpF, Except.ok.injEq] at h
      rw [← h]
      exact hwf
  | cons s rest ih =>
      intro v v' hwf h
      cases v with
      | file c => simp [mkdirpF] at h
      | dir c =>
          simp only [wfNode] at hwf
          simp only [mkdirpF] at h
          split at h
          · next child hl =>
              cases hres : mkdirpF child rest with
              | error e => rw [hres] at h; simp [Except.map] at h
              | ok child' =>
                  rw [hres] at h
                  simp only [Except.map, Except.ok.injEq] at h
                  rw [← h]
                  simp only [wfNode]
                  exact wfEntries_setEntry c s child' hwf
                    (ih child child' (wfNode_of_lookupEntry c s child hwf hl) hres)
          · next hl =>
              cases hres : mkdirpF (.dir []) rest with
              | error e => rw [hres] at h; simp [Except.map] at h
              | ok child' =>
                  rw [hres] at h
                  simp only [Except.map, Except.ok.injEq] at h
                  rw [← h]
                  simp only [wfNode]
                  exact wfEntries_append_one c s child' hwf hl
                    (ih (.dir []) child' (by simp [wfNode, wfEntries]) hres)

theorem lookupEntry_removeEntry_none (c : Entries) (s k : String)
    (h : lookupEntry c k = none) : lookupEntry (removeEntry c s) k = none := by
  induction c with
  | nil => simp [removeEntry, lookupEntry]
  | cons e rest ih =>
      obtain ⟨k0, m⟩ := e
      by_cases h0 : k0 = k
      · simp [lookupEntry, h0] at h
      · simp only [lookupEntry, if_neg h0] at h
        by_cases h1 : k0 = s
        · simp only [removeEntry, if_pos h1]
          exact h
        · simp only [removeEntry, if_neg h1, lookupEntry, if_neg h0]
          exact ih h

theorem wfEntries_removeEntry (c : Entries) (s : String)
    (hc : wfEntries c = true) : wfEntries (removeEntry c s) = true := by
  induction c with
  | nil => simp [removeEntry, wfEntries]
  | cons e rest ih =>
      obtain ⟨k, m⟩ := e
      simp only [wfEntries, Bool.and_eq_true, Bool.not_eq_true'] at hc
      obtain ⟨⟨hlk, hm⟩, hr⟩ := hc
      by_cases h1 : k = s
      · simp only [removeEntry, if_pos h1]
        exact hr
      · simp only [removeEntry, if_neg h1, wfEntries, Bool.and_eq_true,
          Bool.not_eq_true']
        refine ⟨⟨?_, hm⟩, ih hr⟩
        rw [lookupEntry_removeEntry_none rest s k (isSome_false_eq_none hlk)]
        rfl

theorem removePathF_wf (p : List String) : ∀ (v : FNode),
    wfNode v = true → wfNode (removePathF v p) = true := by
  induction p with
  | nil => intro v hwf; simpa [removePathF] using hwf
  | cons s rest ih =>
      intro v hwf
      cases v with
      | file c => simpa [removePathF] using hwf
      | dir c =>
          simp only [wfNode] at hwf
          cases rest with
          | nil =>
              simp only [removePathF, wfNode]
              exact wfEntries_removeEntry c s hwf
          | cons s' rest' =>
              simp only [removePathF]
              cases hl : lookupEntry c s with
              | none => simpa [wfNode] using hwf
              | some child =>
                  simp only [wfNode]
                  exact wfEntries_setEntry c s _ hwf
                    (ih child (wfNode_of_lookupEntry c s child hwf hl))

/-- Root shape: every mutation applied to a directory root yields a
directory root again. -/
theorem applyMut_dir (c : Entries) (m : Mut) :
    ∃ c', applyMut (.dir c) m = .dir c' := by
  cases m with
  | write p x =>
      simp only [applyMut]
      cases hres : writeFileF (.dir c) (resolveSegs "/" p) x with
      | error e => exact ⟨c, rfl⟩
      | ok v' =>
          show ∃ c', v' = FNode.dir c'
          cases hp : resolveSegs "/" p with
          | nil => rw [hp] at hres; simp [writeFileF] at hres
          | cons s rest =>
              rw [hp] at hres
              cases rest with
              | nil =>
                  simp only [writeFileF] at hres
                  split at hres
                  · simp at hres
                  · simp only [Except.ok.injEq] at hres
                    exact ⟨_, hres.symm⟩
              | cons s' rest' =>
                  simp only [writeFileF] at hres
                  split at hres
                  · next child hl =>
                      cases hr2 : writeFileF child (s' :: rest') x with
                      | error e => rw [hr2] at hres; simp [Except.map] at hres
                      | ok child' =>
                          rw [hr2] at hres
                          simp only [Except.map, Except.ok.injEq] at hres
                          exact ⟨_, hres.symm⟩
                  · simp at hres
  | append p x =>
      simp only [applyMut]
      cases hres : appendFileF (.dir c) (resolveSegs "/" p) x with
      | error e => exact ⟨c, rfl⟩
      | ok v' =>
          show ∃ c', v' = FNode.dir c'
          cases hp : resolveSegs "/" p with
          | nil => rw [hp] at hres; simp [appendFileF] at hres
          | cons s rest =>
              rw [hp] at hres
              cases rest with
              | nil =>
                  simp only [appendFileF] at hres
                  split at hres
                  · simp at hres
                  · simp only [Except.ok.injEq] at hres
                    exact ⟨_, hres.symm⟩
                  · simp only [Except.ok.injEq] at hres
                    exact ⟨_, hres.symm⟩
              | cons s' rest' =>
                  simp only [appendFileF] at hres
                  split at hres
                  · next child hl =>
                      cases hr2 : appendFileF child (s' :: rest') x with
                      | error e => rw [hr2] at hres; simp [Except.map] at hres
                      | ok child' =>
                          rw [hr2] at hres
                          simp only [Except.map, Except.ok.injEq] at hres
                          exact ⟨_, hres.symm⟩
                  · simp at hres
  | mkdir p =>
      simp only [applyMut]
      cases hres : mkdirF (.dir c) (resolveSegs "/" p) with
      | error e => exact ⟨c, rfl⟩
      | ok v' =>
          show ∃ c', v' = FNode.dir c'
          cases hp : resolveSegs "/" p with
          | nil => rw [hp] at hres; simp [mkdirF] at hres
          | cons s rest =>
              rw [hp] at hres
              cases rest with
              | nil =>
                  simp only [mkdirF] at hres
                  split at hres
                  · simp at hres
                  · simp only [Except.ok.injEq] at hres
                    exact ⟨_, hres.symm⟩
              | cons s' rest' =>
                  simp only [mkdirF] at hres
                  split at hres
                  · next child hl =>
                      cases hr2 : mkdirF child (s' :: rest') with
                      | error e => rw [hr2] at hres; simp [Except.map] at hres
                      | ok child' =>
                          rw [hr2] at hres
                          simp only [Except.map, Except.ok.injEq] at hres
                          exact ⟨_, hres.symm⟩
                  · simp at hres
  | mkdirp p =>
      simp only [applyMut]
      cases hres : mkdirpF (.dir c) (resolveSegs "/" p) with
      | error e => exact ⟨c, rfl⟩
      | ok v' =>
          show ∃ c', v' = FNode.dir c'
          cases hp : resolveSegs "/" p with
          | nil =>
              rw [hp] at hres
              simp only [mkdirpF, Except.ok.injEq] at hres
              exact ⟨c, hres.symm⟩
          | cons s rest =>
              rw [hp] at hres
              simp only [mkdirpF] at hres
              split at hres
              · next child hl =>
                  cases hr2 : mkdirpF child rest with
                  | error e => rw [hr2] at hres; simp [Except.map] at hres
                  | ok child' =>
                      rw [hr2] at hres
                      simp only [Except.map, Except.ok.injEq] at hres
                      exact ⟨_, hres.symm⟩
              · next hl =>
                  cases hr2 : mkdirpF (.dir []) rest with
                  | error e => rw [hr2] at hres; simp [Except.map] at hres
                  | ok child' =>
                      rw [hr2] at hres
                      simp only [Except.map, Except.ok.injEq] at hres
                      exact ⟨_, hres.symm⟩
  | remove p =>
      simp only [applyMut]
      cases hp : resolveSegs "/" p with
      | nil => exact ⟨c, rfl⟩
      | cons s rest =>
          cases rest with
          | nil => exact ⟨_, rfl⟩
          | cons s' rest' =>
              simp only [removePathF]
              cases lookupEntry c s with
              | none => exact ⟨c, rfl⟩
              | some child => exact ⟨_, rfl⟩

/-- Every volume reachable from the empty volume by shell mutations is a
well-formed directory tree. -/
theorem applyMuts_wf (muts : List Mut) :
    ∃ c, applyMuts muts emptyVolume = .dir c ∧ wfEntries c = true := by
  suffices h : ∀ (c0 : Entries), wfEntries c0 = true →
      ∃ c, applyMuts muts (.dir c0) = .dir c ∧ wfEntries c = true by
    exact h [] rfl
  induction muts with
  | nil => intro c0 h0; exact ⟨c0, rfl, h0⟩
  | cons m rest ih =>
      intro c0 h0
      obtain ⟨c1, hc1⟩ := applyMut_dir c0 m
      have hwf1 : wfEntries c1 = true := by
        have hwfres : wfNode (applyMut (.dir c0) m) = true := by
          cases m with
          | write p x =>
              simp only [applyMut]
              cases hres : writeFileF (.dir c0) (resolveSegs "/" p) x with
              | error e => simpa [wfNode] using h0
              | ok v' => exact writeFileF_wf _ _ _ _ (by simpa [wfNode] using h0) hres
          | append p x =>
              simp only [applyMut]
              cases hres : appendFileF (.dir c0) (resolveSegs "/" p) x with
              | error e => simpa [wfNode] using h0
              | ok v' => exact appendFileF_wf _ _ _ _ (by simpa [wfNode] using h0) hres
          | mkdir p =>
              simp only [applyMut]
              cases hres : mkdirF (.dir c0) (resolveSegs "/" p) with
              | error e => simpa [wfNode] using h0
              | ok v' => exact mkdirF_wf _ _ _ (by simpa [wfNode] using h0) hres
          | mkdirp p =>
              simp only [applyMut]
              cases hres : mkdirpF (.dir c0) (resolveSegs "/" p) with
              | error e => simpa [wfNode] using h0
              | ok v' => exact mkdirpF_wf _ _ _ (by simpa [wfNode] using h0) hres
          | remove p =>
              simp only [applyMut]
              exact removePathF_wf _ _ (by simpa [wfNode] using h0)
        rw [hc1] at hwfres
        simpa [wfNode] using hwfres
      obtain ⟨c, hc, hwf⟩ := ih c1 hwf1
      refine ⟨c, ?_, hwf⟩
      simpa [applyMuts, hc1] using hc

theorem toNat_ofNat_valid (n : Nat) (h : n.isValidChar) :
    (Char.ofNat n).toNat = n := by
  rw [Char.ofNat, dif_pos h]
  rfl

theorem char_le_iff_toNat (a b : Char) : a ≤ b ↔ a.toNat ≤ b.toNat := by
  rw [Char.le_def, UInt32.le_def, BitVec.le_def]
  exact Iff.rfl

theorem lowerChar_not_upper (c : Char) : upperChar (lowerChar c) = false := by
  unfold lowerChar
  by_cases h : upperChar c = true
  · rw [if_pos h]
    have hab : 'A' ≤ c ∧ c ≤ 'Z' := by
      unfold upperChar at h
      simp only [Bool.and_eq_true, decide_eq_true_eq] at h
      exact h
    have ha : 65 ≤ c.toNat := by
      have h3 := (char_le_iff_toNat 'A' c).mp hab.1
      have h65 : ('A').toNat = 65 := rfl
      rw [h65] at h3
      exact h3
    have hz : c.toNat ≤ 90 := by
      have h3 := (char_le_iff_toNat c 'Z').mp hab.2
      have h90 : ('Z').toNat = 90 := rfl
      rw [h90] at h3
      exact h3
    have hv : (c.toNat + 32).isValidChar := Or.inl (by omega)
    have ht : (Char.ofNat (c.toNat + 32)).toNat = c.toNat + 32 := toNat_ofNat_valid _ hv
    have hnle : ¬(Char.ofNat (c.toNat + 32) ≤ 'Z') := by
      rw [char_le_iff_toNat, ht]
      have h90 : ('Z').toNat = 90 := rfl
      rw [h90]
      omega
    simp [upperChar, hnle]
  · rw [if_neg h]
    simp only [Bool.not_eq_true] at h
    exact h

theorem hasUpper_jsToLower (s : String) : hasUpper (jsToLower s) = false := by
  unfold hasUpper jsToLower
  simp only [List.any_eq_false]
  intro c hc
  simp only [List.mem_map] at hc
  obtain ⟨c0, _, hc0⟩ := hc
  rw [← hc0]
  simp [lowerChar_not_upper]

/-! # Claim-specific helper lemmas -/

theorem lookupOwn_eq_none (reg : List (String × Cmd)) (t : String)
    (h : ∀ k ∈ reg.map Prod.fst, ¬k = t) : lookupOwn reg t = none := by
  induction reg with
  | nil => rfl
  | cons e rest ih =>
      obtain ⟨k, c⟩ := e
      have hk := h k (by simp)
      simp only [lookupOwn, if_neg hk]
      exact ih (fun g hg => h g (by simp [hg]))

theorem lookupCmd_absent (reg : List (String × Cmd)) (t : String)
    (h : lookupOwn reg t = none) (hp : ¬t ∈ objectPrototypeKeys) :
    lookupCmd reg t = .absent := by
  simp [lookupCmd, h, hp]

theorem mem_keys_setCmd (acc : List (String × Cmd)) (s : String) (c : Cmd) (k : String)
    (h : k ∈ (setCmd acc s c).map Prod.fst) : k ∈ acc.map Prod.fst ∨ k = s := by
  induction acc with
  | nil =>
      simp only [setCmd, List.map_cons, List.map_nil, List.mem_singleton] at h
      exact Or.inr h
  | cons e rest ih =>
      obtain ⟨k0, c0⟩ := e
      by_cases h0 : k0 = s
      · simp only [setCmd, if_pos h0, List.map_cons, List.mem_cons] at h
        rcases h with h | h
        · exact Or.inl (by simp [h])
        · exact Or.inl (by simp only [List.map_cons, List.mem_cons]; right; exact h)
      · simp only [setCmd, if_neg h0, List.map_cons, List.mem_cons] at h
        rcases h with h | h
        · exact Or.inl (by simp [h])
        · rcases ih h with h' | h'
          · exact Or.inl (by simp only [List.map_cons, List.mem_cons]; right; exact h')
          · exact Or.inr h'

theorem importAux_keys (files : List (String × CommandModule)) :
    ∀ acc reg, importAux acc files = .ok reg →
    (∀ k ∈ acc.map Prod.fst, hasUpper k = false) →
    ∀ k ∈ reg.map Prod.fst, hasUpper k = false := by
  induction files with
  | nil =>
      intro acc reg h hacc
      simp only [importAux, Except.ok.injEq] at h
      rw [← h]
      exact hacc
  | cons fm rest ih =>
      intro acc reg h hacc
      obtain ⟨f, m⟩ := fm
      simp only [importAux] at h
      split at h
      · exact ih acc reg h hacc
      · split at h
        · refine ih _ reg h ?_
          intro k hk
          rcases mem_keys_setCmd acc _ _ k hk with hk' | hk'
          · exact hacc k hk'
          · rw [hk']
            exact hasUpper_jsToLower _
        · simp at h

theorem importAux_error (files : List (String × CommandModule)) :
    ∀ acc, (∃ fm ∈ files, jsEndsWith ".js" fm.1 = true ∧ fm.2.valid = false) →
    ∃ e, importAux acc files = .error e := by
  induction files with
  | nil => intro acc h; simp at h
  | cons fm rest ih =>
      intro acc h
      obtain ⟨f, m⟩ := fm
      cases hjs : jsEndsWith ".js" f with
      | false =>
          have hrest : ∃ g ∈ rest, jsEndsWith ".js" g.1 = true ∧ g.2.valid = false := by
            rcases h with ⟨g, hg, hgjs, hgv⟩
            rcases List.mem_cons.mp hg with hgeq | hg'
            · rw [hgeq] at hgjs
              simp only at hgjs
              rw [hjs] at hgjs
              simp at hgjs
            · exact ⟨g, hg', hgjs, hgv⟩
          obtain ⟨e, he⟩ := ih acc hrest
          exact ⟨e, by simp [importAux, hjs, he]⟩
      | true =>
          cases hv : m.valid with
          | false =>
              exact ⟨ERR_INVALID_COMMAND_CLASS (commandPath f),
                by simp [importAux, hjs, hv]⟩
          | true =>
              have hrest : ∃ g ∈ rest, jsEndsWith ".js" g.1 = true ∧ g.2.valid = false := by
                rcases h with ⟨g, hg, hgjs, hgv⟩
                rcases List.mem_cons.mp hg with hgeq | hg'
                · rw [hgeq] at hgv
                  simp only at hgv
                  rw [hv] at hgv
                  simp at hgv
                · exact ⟨g, hg', hgjs, hgv⟩
              obtain ⟨e, he⟩ :=
                ih (setCmd acc (jsToLower (jsReplaceFirst f "-command.js" "")) m.cmd) hrest
              exact ⟨e, by simp [importAux, hjs, hv, he]⟩

theorem rmStripFlags_skips (flags targets : List String)
    (hflags : ∀ f ∈ flags, f = "-r" ∨ f = "-R")
    (hne : targets ≠ [])
    (hhead : ∀ t0, targets.head? = some t0 → jsStartsWithChar '-' t0 = false) :
    rmStripFlags (flags ++ targets) = .ok targets := by
  induction flags with
  | nil =>
      cases targets with
      | nil => exact absurd rfl hne
      | cons t ts =>
          have h := hhead t rfl
          simp [rmStripFlags, h]
  | cons f fs ih =>
      have hf := hflags f (List.mem_cons_self f fs)
      have ihh := ih (fun g hg => hflags g (List.mem_cons_of_mem f hg))
      have hsw : jsStartsWithChar '-' f = true := by
        rcases hf with hf | hf <;> rw [hf] <;> decide
      have hok : (f = "-r" || f = "-R") = true := by
        rcases hf with hf | hf <;> rw [hf] <;> decide
      simp [rmStripFlags, hsw, hok, ihh]

/-! # The claims -/

/-- C1, counterexample: `executeCommand` on `"echo hi"` (command resolves,
no hooks fail, no redirection) returns the raw output `"hi"` — it is *not*
the namespaced `"bash: hi"` and *no* `stdout` event is published, refuting
the claim at this input. -/
theorem c1_counterexample :
    (executeCommand stdCfg freshShell "echo hi").result = "hi" ∧
    (executeCommand stdCfg freshShell "echo hi").result ≠ shellMessage "hi" ∧
    (executeCommand stdCfg freshShell "echo hi").events = [] := by
  refine ⟨by decide, by decide, by decide⟩

/-- C1 (amended): for every non-empty command line without an applicable
trailing redirection whose command resolves and whose body and hooks
succeed, `executeCommand` returns the command's *raw* output — without the
`bash:` namespace prefix — and publishes no `stdout` (or `stderr`) event;
only error paths and the post-redirection empty success message are
namespaced and published. -/
theorem c1_success_returns_raw_output (cfg : ShellCfg) (st : ShellState) (line : String)
    (name out : String) (st' : ShellState) (cmd : Cmd) (ids pids : List String)
    (hline : isInvalidCommand line = false)
    (hname : commandNameOf (shellQuoteParse (extractRedirection line).commandInput) = name)
    (hne : ¬name = "")
    (hcmd : lookupCmd cfg.registry name = .registered cmd)
    (hpre : runPreHooks (cfg.pre name)
      (commandArgsOf (shellQuoteParse (extractRedirection line).commandInput)) = (ids, none))
    (hexec : cmd st (commandArgsOf (shellQuoteParse (extractRedirection line).commandInput))
      = .ok (out, st'))
    (hpost : runPostHooks (cfg.post name)
      (commandArgsOf (shellQuoteParse (extractRedirection line).commandInput)) out
      = (pids, none))
    (hop : (extractRedirection line).redirectionOperator = none ∨
      (extractRedirection line).targetFile = none) :
    executeCommand cfg st line = ⟨out, st', [], ids, pids⟩ := by
  simp only [executeCommand, hline, Bool.false_eq_true, if_false, hname, if_neg hne, hcmd,
    runPipeline, hpre, hexec, hpost]
  rcases hop with ho | ho
  · simp [ho]
  · rcases hoo : (extractRedirection line).redirectionOperator with _ | o
    · simp [hoo]
    · simp [hoo, ho]

/-- Witness for C1 (amended) at `"echo hi"`. -/
theorem c1_success_returns_raw_output_witness :
    executeCommand stdCfg freshShell "echo hi" = ⟨"hi", freshShell, [], [], []⟩ :=
  c1_success_returns_raw_output stdCfg freshShell "echo hi" "echo" "hi" freshShell
    echoExecute [] [] (by decide) (by decide) (by decide) rfl rfl rfl rfl (Or.inl rfl)

/-- C4, counterexample: from the *empty* volume, the redirection target
`/tmp/out.txt` does not exist, so the `access(W_OK)` pre-check fails:
`echo hello world > /tmp/out.txt` returns the `PermissionDenied` message
and writes nothing, and the following `cat /tmp/out.txt` reports a missing
file instead of `"hello world\n"`. -/
theorem c4_counterexample :
    (executeCommand stdCfg freshShell "echo hello world > /tmp/out.txt").result
      = shellMessage (ERR_PERMISSION_DENIED "/tmp/out.txt") ∧
    (executeCommand stdCfg
        (executeCommand stdCfg freshShell "echo hello world > /tmp/out.txt").state
        "cat /tmp/out.txt").result
      = shellMessage (ERR_NO_SUCH_DIRECTORY "out.txt") ∧
    (executeCommand stdCfg
        (executeCommand stdCfg freshShell "echo hello world > /tmp/out.txt").state
        "cat /tmp/out.txt").result ≠ "hello world\n" := by
  refine ⟨by decide, by decide, by decide⟩

/-- C4 (amended): starting from a volume in which `/tmp/out.txt` already
exists as a (writable) file — whatever its prior content — executing
`echo hello world > /tmp/out.txt` succeeds (returning the namespaced
empty-output message) and `cat /tmp/out.txt` then returns
`"hello world\n"`: the redirection wrote the echo output plus a trailing
newline. -/
theorem c4_redirect_existing_file_roundtrip (prior : String) :
    (executeCommand stdCfg ⟨"/", .dir [("tmp", .dir [("out.txt", .file prior)])]⟩
        "echo hello world > /tmp/out.txt").result = shellMessage "" ∧
    (executeCommand stdCfg
        (executeCommand stdCfg ⟨"/", .dir [("tmp", .dir [("out.txt", .file prior)])]⟩
          "echo hello world > /tmp/out.txt").state
        "cat /tmp/out.txt").result = "hello world\n" := by
  exact ⟨rfl, rfl⟩

/-- C5, counterexample: with an existing *directory* `/d` as target, the
writability check passes (`/d` exists and is writable) yet `>` does not
overwrite it with the output: the invocation returns a write-error message
instead of the empty-output success message and the volume is unchanged —
so "if the check passes, `>` overwrites" does not hold for every redirected
invocation. -/
theorem c5_counterexample :
    accessW (FNode.dir [("d", FNode.dir [])]) (resolveSegs "/" "/d") = true ∧
    (executeCommand stdCfg ⟨"/", .dir [("d", .dir [])]⟩ "echo hi > /d").result
      ≠ shellMessage "" ∧
    (executeCommand stdCfg ⟨"/", .dir [("d", .dir [])]⟩ "echo hi > /d").state.volume
      = FNode.dir [("d", FNode.dir [])] := by
  refine ⟨by decide, by decide, rfl⟩

/-- C5 (amended): every redirected invocation first resolves the target
and requires `access(W_OK)` to pass: if it fails, the result is the
`PermissionDenied` stderr message and the volume is untouched.  When the
check passes *and the resolved target is an existing regular file*, `>`
overwrites the file with the output plus a trailing newline and `>>`
appends it, the invocation returning the empty-output success message
(`"bash: "`); any operator other than `>`/`>>` yields the
`InvalidOperator` stderr message with the volume untouched.  (A directory
target passes the check but the write itself fails — see the
counterexample.) -/
theorem c5_redirection_checked_writes (output operator targetFile commandName : String)
    (st : ShellState) (ids pids : List String) :
    (accessW st.volume (resolveSegs st.currentDirectory targetFile) = false →
      processRedirection output operator targetFile commandName st ids pids
        = stderrOutcome st
            (ERR_PERMISSION_DENIED (resolvePath st.currentDirectory targetFile)) ids pids) ∧
    (∀ s0 rest c0, resolveSegs st.currentDirectory targetFile = s0 :: rest →
      nodeAt st.volume (s0 :: rest) = some (.file c0) →
      (operator = ">" →
        (processRedirection output operator targetFile commandName st ids pids).result
          = shellMessage "" ∧
        (processRedirection output operator targetFile commandName st ids pids).events
          = [(Stream'.stdout, shellMessage "")] ∧
        nodeAt (processRedirection output operator targetFile commandName st ids
            pids).state.volume (s0 :: rest) = some (.file (output ++ "\n"))) ∧
      (operator = ">>" →
        (processRedirection output operator targetFile commandName st ids pids).result
          = shellMessage "" ∧
        (processRedirection output operator targetFile commandName st ids pids).events
          = [(Stream'.stdout, shellMessage "")] ∧
        nodeAt (processRedirection output operator targetFile commandName st ids
            pids).state.volume (s0 :: rest) = some (.file (c0 ++ (output ++ "\n")))) ∧
      (¬operator = ">" → ¬operator = ">>" →
        processRedirection output operator targetFile commandName st ids pids
          = stderrOutcome st (ERR_INVALID_OPERATOR operator) ids pids)) := by
  constructor
  · intro hacc
    simp [processRedirection, hacc]
  · intro s0 rest c0 hsegs hfile
    have hacc2 : accessW st.volume (s0 :: rest) = true := by
      simp [accessW, hfile]
    refine ⟨?_, ?_, ?_⟩
    · intro hop
      subst hop
      have hw := writeFileF_at_file s0 rest st.volume c0 (output ++ "\n") hfile
      refine ⟨?_, ?_, ?_⟩
      · simp [processRedirection, hsegs, hacc2, hw]
      · simp [processRedirection, hsegs, hacc2, hw]
      · simp only [processRedirection, hsegs, hacc2, Bool.not_true, Bool.false_eq_true,
          if_false, if_pos rfl, hw]
        exact nodeAt_updateAt_self st.volume (.file c0) (.file (output ++ "\n"))
          (s0 :: rest) hfile
    · intro hop
      subst hop
      have hw := appendFileF_at_file s0 rest st.volume c0 (output ++ "\n") hfile
      refine ⟨?_, ?_, ?_⟩
      · simp [processRedirection, hsegs, hacc2, hw]
      · simp [processRedirection, hsegs, hacc2, hw]
      · simp only [processRedirection, hsegs, hacc2, Bool.not_true, Bool.false_eq_true,
          if_false, hw]
        have hne1 : ¬(">>" : String) = ">" := by decide
        simp only [if_neg hne1, if_pos rfl, hw]
        exact nodeAt_updateAt_self st.volume (.file c0) (.file (c0 ++ (output ++ "\n")))
          (s0 :: rest) hfile
    · intro h1 h2
      simp [processRedirection, hsegs, hacc2, h1, h2]

/-- Witness for C5 (amended): `>` into the existing file `/tmp/out.txt`
returns the empty-output success message and leaves `"hi\n"` in the file. -/
theorem c5_redirection_checked_writes_witness :
    (processRedirection "hi" ">" "/tmp/out.txt" "echo"
        ⟨"/", .dir [("tmp", .dir [("out.txt", .file "old")])]⟩ [] []).result
      = shellMessage "" ∧
    nodeAt (processRedirection "hi" ">" "/tmp/out.txt" "echo"
        ⟨"/", .dir [("tmp", .dir [("out.txt", .file "old")])]⟩ [] []).state.volume
      ["tmp", "out.txt"] = some (.file "hi\n") := by
  have h := c5_redirection_checked_writes "hi" ">" "/tmp/out.txt" "echo"
    ⟨"/", .dir [("tmp", .dir [("out.txt", .file "old")])]⟩ [] []
  have h2 := (h.2 "tmp" ["out.txt"] "old" (by decide) rfl).1 rfl
  exact ⟨h2.1, h2.2.2⟩

/-- C6: whenever the command body throws, the post-hook pipeline for that
command name is never entered (`postRan = []`) and `executeCommand` returns
the single namespaced stderr message built from the thrown message (with
the unknown-error fallback for an empty message), also emitting it as the
one `stderr` event. -/
theorem c6_no_posthook_after_throw (cfg : ShellCfg) (st : ShellState) (line : String)
    (name e : String) (cmd : Cmd) (ids : List String)
    (hline : isInvalidCommand line = false)
    (hname : commandNameOf (shellQuoteParse (extractRedirection line).commandInput) = name)
    (hne : ¬name = "")
    (hcmd : lookupCmd cfg.registry name = .registered cmd)
    (hpre : runPreHooks (cfg.pre name)
      (commandArgsOf (shellQuoteParse (extractRedirection line).commandInput)) = (ids, none))
    (hexec : cmd st (commandArgsOf (shellQuoteParse (extractRedirection line).commandInput))
      = .error e) :
    executeCommand cfg st line = stderrOutcome st (renderErr e) ids [] := by
  simp only [executeCommand, hline, Bool.false_eq_true, if_false, hname, if_neg hne, hcmd,
    runPipeline, hpre, hexec]

/-- Witness for C6: a command that throws `"kaput"`, with a post-hook
registered for its name, yields the namespaced stderr outcome with an empty
post-hook trace. -/
theorem c6_no_posthook_after_throw_witness :
    executeCommand
      ⟨[("boom", fun _ _ => .error "kaput")], fun _ => [],
        fun _ => [⟨"post1", fun _ _ => .ok ()⟩]⟩
      freshShell "boom now"
      = stderrOutcome freshShell (renderErr "kaput") [] [] :=
  c6_no_posthook_after_throw
    ⟨[("boom", fun _ _ => .error "kaput")], fun _ => [],
      fun _ => [⟨"post1", fun _ _ => .ok ()⟩]⟩
    freshShell "boom now" "boom" "kaput" (fun _ _ => .error "kaput") []
    (by decide) (by decide) (by decide) rfl rfl rfl

/-- C7: volume serialization round-trips — for every volume reachable from
the empty volume by a sequence of filesystem mutations, restoring the
serialized snapshot yields a volume that agrees with the original at every
path (same node kind and same file content). -/
theorem c7_serialize_roundtrip (muts : List Mut) (p : List String) :
    nodeAt (deserializeVolume (serializeVolume (applyMuts muts emptyVolume))) p
      = nodeAt (applyMuts muts emptyVolume) p := by
  obtain ⟨c, hc, hwf⟩ := applyMuts_wf muts
  rw [hc, deserialize_serialize c hwf]

/-- C8, counterexample: constructing a shell whose discovery list contains
an invalid command module *completes*: the constructor does not await the
async import, so it returns a shell (default working directory, empty
registry at return time) while the import pipeline rejects with
`InvalidCommandClass` in the background — and an `executeCommand` call can
run before that error surfaces. -/
theorem c8_counterexample :
    (constructShell none none [("bad-command.js", ⟨false, echoExecute⟩)]).importResult
      = .error (ERR_INVALID_COMMAND_CLASS (commandPath "bad-command.js")) ∧
    (constructShell none none [("bad-command.js", ⟨false, echoExecute⟩)]).state.currentDirectory
      = "/" ∧
    (constructShell none none [("bad-command.js", ⟨false, echoExecute⟩)]).commandsAtReturn
      = [] ∧
    (executeCommand
        ⟨(constructShell none none
            [("bad-command.js", ⟨false, echoExecute⟩)]).commandsAtReturn,
          fun _ => [], fun _ => []⟩
        (constructShell none none [("bad-command.js", ⟨false, echoExecute⟩)]).state
        "echo hi").result
      = shellMessage (ERR_CMD_NOT_FOUND "echo") := by
  refine ⟨rfl, rfl, rfl, by decide⟩

/-- C8 (amended): if any discovered `.js` command module is invalid, the
background import rejects with an error (`InvalidCommandClass` at the first
invalid module), but shell construction still completes: the constructor
returns a shell with the configured working directory and an empty command
registry, because it never awaits `importCommandModules`. -/
theorem c8_construction_completes_despite_invalid_module
    (cd u : Option String) (files : List (String × CommandModule))
    (hbad : ∃ fm ∈ files, jsEndsWith ".js" fm.1 = true ∧ fm.2.valid = false) :
    (∃ e, (constructShell cd u files).importResult = .error e) ∧
    (constructShell cd u files).state.currentDirectory = cd.getD "/" ∧
    (constructShell cd u files).commandsAtReturn = [] := by
  refine ⟨?_, rfl, rfl⟩
  exact importAux_error files [] hbad

/-- Witness for C8 (amended) at a one-module discovery list. -/
theorem c8_construction_completes_despite_invalid_module_witness :
    (∃ e, (constructShell none none
        [("bad-command.js", ⟨false, echoExecute⟩)]).importResult = .error e) ∧
    (constructShell none none
        [("bad-command.js", ⟨false, echoExecute⟩)]).state.currentDirectory
      = (none : Option String).getD "/" ∧
    (constructShell none none
        [("bad-command.js", ⟨false, echoExecute⟩)]).commandsAtReturn = [] :=
  c8_construction_completes_despite_invalid_module none none
    [("bad-command.js", ⟨false, echoExecute⟩)]
    ⟨("bad-command.js", ⟨false, echoExecute⟩), by simp, by decide, rfl⟩

/-- C9: for every shell state and every argument list the rm command
accepts — leading flags drawn from `-r`/`-R` followed by at least one
target (the first target not dash-prefixed) — `RmCommand.execute` returns
the empty string and the state (hence the volume) completely unchanged:
the deletion step is commented out in the source. -/
theorem c9_rm_never_deletes (st : ShellState) (args flags targets : List String)
    (hargs : args = flags ++ targets)
    (hflags : ∀ f ∈ flags, f = "-r" ∨ f = "-R")
    (hne : targets ≠ [])
    (hhead : ∀ t0, targets.head? = some t0 → jsStartsWithChar '-' t0 = false) :
    rmExecute st args = .ok ("", st) := by
  subst hargs
  have hstrip := rmStripFlags_skips flags targets hflags hne hhead
  have hne1 : (flags ++ targets).isEmpty = false := by
    cases targets with
    | nil => exact absurd rfl hne
    | cons t ts => cases flags <;> rfl
  have hne2 : targets.isEmpty = false := by
    cases targets with
    | nil => exact absurd rfl hne
    | cons t ts => rfl
  simp [rmExecute, hne1, hstrip, hne2]

/-- Witness for C9 at `rm -r a.txt` on a fresh shell. -/
theorem c9_rm_never_deletes_witness :
    rmExecute freshShell ["-r", "a.txt"] = .ok ("", freshShell) :=
  c9_rm_never_deletes freshShell ["-r", "a.txt"] ["-r"] ["a.txt"] rfl
    (by intro f hf; simp only [List.mem_singleton] at hf; exact Or.inl hf)
    (by simp)
    (by intro t0 ht; simp only [List.head?_cons, Option.some.injEq] at ht; rw [← ht]; decide)

/-- C10, counterexample: the first token `"toString"` contains an
uppercase letter and is not a registered command, yet `executeCommand` does
*not* report `CommandNotFound` for it: JS `in` on the plain `this.commands`
object finds `Object.prototype.toString` through the prototype chain, the
truthy inherited value passes the `!commandInstance` guard, and calling its
missing `execute` throws a TypeError that the catch maps to a different
stderr message — refuting the universally quantified claim. -/
theorem c10_counterexample :
    hasUpper "toString" = true ∧
    (executeCommand stdCfg freshShell "toString hi").result
      = shellMessage TYPEERROR_EXECUTE ∧
    (executeCommand stdCfg freshShell "toString hi").result
      ≠ shellMessage (ERR_CMD_NOT_FOUND "toString") := by
  refine ⟨by decide, by decide, by decide⟩

/-- C10 (amended): command names registered by module discovery are
lowercased (`file.replace('-command.js','').toLowerCase()`), and the
registry lookup is case-sensitive — so any command line whose first token
contains an uppercase letter *and is not one of the property names
inherited from `Object.prototype`* (such as `toString`, which instead
passes the `in` check and fails later with a TypeError stderr message)
yields the `CommandNotFound` stderr outcome for that token, even when the
lowercase-named command is registered. -/
theorem c10_uppercase_command_not_found (files : List (String × CommandModule))
    (reg : List (String × Cmd)) (pre : String → List Hook)
    (post : String → List PostHook) (st : ShellState) (line t : String)
    (himp : importCommandModules files = .ok reg)
    (hline : isInvalidCommand line = false)
    (hname : commandNameOf (shellQuoteParse (extractRedirection line).commandInput) = t)
    (hupper : hasUpper t = true)
    (hproto : ¬t ∈ objectPrototypeKeys) :
    executeCommand ⟨reg, pre, post⟩ st line
      = stderrOutcome st (ERR_CMD_NOT_FOUND t) [] [] := by
  have hkeys : ∀ k ∈ reg.map Prod.fst, hasUpper k = false :=
    importAux_keys files [] reg himp (by simp)
  have hne : ¬t = "" := by
    intro ht
    rw [ht] at hupper
    exact absurd hupper (by decide)
  have hown : lookupOwn reg t = none := by
    apply lookupOwn_eq_none
    intro k hk hkt
    have hku := hkeys k hk
    rw [hkt] at hku
    rw [hku] at hupper
    exact absurd hupper (by decide)
  have hnone : lookupCmd reg t = .absent := lookupCmd_absent reg t hown hproto
  simp only [executeCommand, hline, Bool.false_eq_true, if_false, hname, if_neg hne, hnone]

/-- Witness for C10 (amended): with `echo-command.js` discovered
(registering `echo`), the line `"ECHO hi"` is rejected with
`CommandNotFound` even though the lowercase command is registered. -/
theorem c10_uppercase_command_not_found_witness :
    executeCommand
      ⟨[("echo", echoExecute)], fun _ => [], fun _ => []⟩
      freshShell "ECHO hi"
      = stderrOutcome freshShell (ERR_CMD_NOT_FOUND "ECHO") [] [] ∧
    lookupOwn [("echo", echoExecute)] "echo" = some echoExecute := by
  constructor
  · exact c10_uppercase_command_not_found
      [("echo-command.js", ⟨true, echoExecute⟩)] [("echo", echoExecute)]
      (fun _ => []) (fun _ => []) freshShell "ECHO hi" "ECHO"
      rfl (by decide) (by decide) (by decide) (by decide)
  · rfl

end VShell
